import Mathlib

/-!
Verification of the save-protocol core of the PTD local server
(`ptd_server_v2.py`).  Python strings are embedded as `List Char`,
Python non-negative integers as `Nat`, Python dicts as insertion-ordered
association lists, and the mutating delta-parser loop as explicit state
passing (with a second, heap-passing embedding used to reason about
which objects the parser writes to).
-/

namespace PTD

/-! ### Numeric codec (source lines 44-122) -/

/-- `LETTER_LIST = ["m","y","w","c","q","a","p","r","e","o"]` -/
def LETTER_LIST : List Char := ['m', 'y', 'w', 'c', 'q', 'a', 'p', 'r', 'e', 'o']

/-- `LETTER_TO_DIGIT = {c: str(i) for i, c in enumerate(LETTER_LIST)}`;
lookup returns `none` for characters outside the alphabet. -/
def letterToDigit : Char → Option Nat
  | 'm' => some 0
  | 'y' => some 1
  | 'w' => some 2
  | 'c' => some 3
  | 'q' => some 4
  | 'a' => some 5
  | 'p' => some 6
  | 'r' => some 7
  | 'e' => some 8
  | 'o' => some 9
  | _ => none

/-- `DIGIT_TO_LETTER[str(d)]`; the source only ever applies it to decimal
digits of `str(n)`, so the out-of-range default is never reached. -/
def digitToLetter (d : Nat) : Char := LETTER_LIST.getD d 'm'

/-- Little-endian decimal digits with explicit fuel (`fuel ≥ n`
suffices); structural recursion keeps it kernel-computable. -/
def digitsLE : Nat → Nat → List Nat
  | 0, _ => []
  | f + 1, n => if n = 0 then [] else n % 10 :: digitsLE f (n / 10)

/-- The decimal digits of `n`, most significant first, as produced by
Python `str(n)` for `n ≥ 0` (so `0` has the single digit `0`). -/
def decDigits (n : Nat) : List Nat :=
  if n = 0 then [0] else (digitsLE n n).reverse

theorem digitsLE_eq_digits : ∀ (f n : Nat), n ≤ f → digitsLE f n = Nat.digits 10 n := by
  intro f
  induction f with
  | zero => intro n hn; interval_cases n; simp [digitsLE]
  | succ f ih =>
    intro n hn
    by_cases h0 : n = 0
    · subst h0; simp [digitsLE]
    · rw [digitsLE, if_neg h0, Nat.digits_def' (by norm_num : 1 < 10) (by omega)]
      congr 1
      exact ih _ (by omega)

/-- `decDigits` agrees with the Mathlib digit list (reversed). -/
theorem decDigits_eq (n : Nat) :
    decDigits n = if n = 0 then [0] else (Nat.digits 10 n).reverse := by
  unfold decDigits
  by_cases h0 : n = 0
  · simp [h0]
  · rw [if_neg h0, if_neg h0, digitsLE_eq_digits n n le_rfl]

/-- `encode_int` (lines 62-67): each decimal digit of `str(n)` replaced
by its letter. -/
def encode_int (n : Nat) : List Char := (decDigits n).map digitToLetter

/-- Decimal value of a digit list read left to right, as Python
`int(digits)` computes it. -/
def decValue (ds : List Nat) : Nat := ds.foldl (fun a d => a * 10 + d) 0

/-- `decode_int_string` (lines 49-59): empty input decodes to 0; any
character outside the alphabet makes the whole decode return 0;
otherwise the digit string is read as a decimal number. -/
def decode_int_string (s : List Char) : Nat :=
  if s.isEmpty then 0
  else
    match s.mapM letterToDigit with
    | some ds => decValue ds
    | none => 0

/-- Python slice `s[i:i+len]`. -/
def slice (s : List Char) (i len : Nat) : List Char := (s.drop i).take len

/-- `read_int` (lines 70-79): read a length-prefixed integer from `blob`
starting at cursor `i`; returns the value and the new cursor.
`blob[i]` (a one-character string) is `slice blob i 1`. -/
def read_int (blob : List Char) (i : Nat) : Nat × Nat :=
  if blob.length ≤ i then (0, i)
  else
    let length := decode_int_string (slice blob i 1)
    let i := i + 1
    if blob.length < i + length then (0, i)
    else (decode_int_string (slice blob i length), i + length)

/-- `read_int2` (lines 82-95): double-length-prefixed integer. -/
def read_int2 (blob : List Char) (i : Nat) : Nat × Nat :=
  if blob.length ≤ i then (0, i)
  else
    let lenLen := decode_int_string (slice blob i 1)
    let i := i + 1
    if blob.length < i + lenLen then (0, i)
    else
      let length := decode_int_string (slice blob i lenLen)
      let i := i + lenLen
      if blob.length < i + length then (0, i)
      else (decode_int_string (slice blob i length), i + length)

/-- `encode_with_length` (lines 98-102). -/
def encode_with_length (n : Nat) : List Char :=
  encode_int (encode_int n).length ++ encode_int n

/-- `encode_with_double_length` (lines 105-110). -/
def encode_with_double_length (n : Nat) : List Char :=
  encode_int (encode_int (encode_int n).length).length
    ++ encode_int (encode_int n).length ++ encode_int n

/-- `read_string` (lines 113-122): single-letter length prefix followed
by that many raw characters. -/
def read_string (blob : List Char) (i : Nat) : List Char × Nat :=
  if blob.length ≤ i then ([], i)
  else
    let length := decode_int_string (slice blob i 1)
    let i := i + 1
    if blob.length < i + length then ([], i)
    else (slice blob i length, i + length)

/-! ### Profile-ID computation (source lines 129-174) -/

/-- `char_to_value` (lines 129-138): `a..i`/`1..9` map to 1..9,
`j..z` to 10..26, everything else to 0. -/
def char_to_value (c : Char) : Nat :=
  if c = 'a' ∨ c = '1' then 1
  else if c = 'b' ∨ c = '2' then 2
  else if c = 'c' ∨ c = '3' then 3
  else if c = 'd' ∨ c = '4' then 4
  else if c = 'e' ∨ c = '5' then 5
  else if c = 'f' ∨ c = '6' then 6
  else if c = 'g' ∨ c = '7' then 7
  else if c = 'h' ∨ c = '8' then 8
  else if c = 'i' ∨ c = '9' then 9
  else if c = 'j' then 10
  else if c = 'k' then 11
  else if c = 'l' then 12
  else if c = 'm' then 13
  else if c = 'n' then 14
  else if c = 'o' then 15
  else if c = 'p' then 16
  else if c = 'q' then 17
  else if c = 'r' then 18
  else if c = 's' then 19
  else if c = 't' then 20
  else if c = 'u' then 21
  else if c = 'v' then 22
  else if c = 'w' then 23
  else if c = 'x' then 24
  else if c = 'y' then 25
  else if c = 'z' then 26
  else 0

/-- `num_to_letter` (lines 141-146): `0 ≤ n < 26` gives the letter,
anything else the empty string. -/
def num_to_letter (n : Nat) : List Char :=
  if n < 26 then ["abcdefghijklmnopqrstuvwxyz".toList.getD n 'a'] else []

/-- `compute_profile_id` (lines 156-174).  `trainer_id` is a Python
`int`, embedded as `Int`; in the branch that computes, the product is
positive so its decimal digits are those of the `Nat` value. -/
def compute_profile_id (current_save : List Char) (trainer_id : Int) :
    Option (List Char) :=
  if current_save.length ≠ 14 then none
  else
    let char_sum : Nat := (current_save.map char_to_value).sum
    if char_sum = 0 ∨ trainer_id < 333 ∨ 99999 < trainer_id then none
    else
      let result : Nat := (trainer_id * char_sum * 14).toNat
      let result_digits := decDigits result
      let first_digit := result_digits.headD 0
      some ((result_digits.map fun d => num_to_letter (d + first_digit)).flatten)

/-! ### Basic codec lemmas -/

theorem letterToDigit_digitToLetter {d : Nat} (h : d < 10) :
    letterToDigit (digitToLetter d) = some d := by
  interval_cases d <;> rfl

theorem decDigits_lt (n : Nat) : ∀ d ∈ decDigits n, d < 10 := by
  intro d hd
  rw [decDigits_eq] at hd
  split at hd
  · simp at hd; omega
  · exact Nat.digits_lt_base (by norm_num) (List.mem_reverse.mp hd)

theorem decDigits_ne_nil (n : Nat) : decDigits n ≠ [] := by
  rw [decDigits_eq]
  split
  · simp
  · simpa using Nat.digits_ne_nil_iff_ne_zero.mpr (by assumption)

theorem mapM_letterToDigit_encode (ds : List Nat) (h : ∀ d ∈ ds, d < 10) :
    (ds.map digitToLetter).mapM letterToDigit = some ds := by
  induction ds with
  | nil => rfl
  | cons d t ih =>
    have hd : d < 10 := h d (by simp)
    have ht := ih (fun x hx => h x (by simp [hx]))
    rw [List.map_cons, List.mapM_cons, letterToDigit_digitToLetter hd, ht]
    rfl

theorem decValue_eq_ofDigits (ds : List Nat) :
    decValue ds = Nat.ofDigits 10 ds.reverse := by
  suffices h : ∀ (a : Nat), ds.foldl (fun x d => x * 10 + d) a
      = Nat.ofDigits 10 ds.reverse + a * 10 ^ ds.length by
    simpa [decValue] using h 0
  induction ds with
  | nil => simp [Nat.ofDigits]
  | cons d t ih =>
    intro a
    simp only [List.foldl_cons, List.reverse_cons, ih, Nat.ofDigits_append,
      List.length_reverse, List.length_cons, Nat.ofDigits_singleton]
    ring

theorem decValue_decDigits (n : Nat) : decValue (decDigits n) = n := by
  rw [decDigits_eq]
  split
  · simp [decValue]; omega
  · rw [decValue_eq_ofDigits, List.reverse_reverse, Nat.ofDigits_digits]

/-- Shared round-trip fact: decoding an encoded integer restores it. -/
theorem decode_encode (n : Nat) : decode_int_string (encode_int n) = n := by
  unfold decode_int_string encode_int
  rw [mapM_letterToDigit_encode _ (decDigits_lt n)]
  have hne : decDigits n ≠ [] := decDigits_ne_nil n
  simp only [List.isEmpty_eq_true, List.map_eq_nil_iff]
  rw [if_neg hne]
  exact decValue_decDigits n

/-- C1: for every integer `n ≥ 0`, decoding the bare-integer encoding of
`n` yields `n` back: `decode_int_string (encode_int n) = n`. -/
theorem C1_decode_encode_roundtrip (n : Nat) :
    decode_int_string (encode_int n) = n :=
  decode_encode n

/-! ### Length of encodings -/

theorem decDigits_length_le_iff {n k : Nat} (hk : 1 ≤ k) :
    (decDigits n).length ≤ k ↔ n < 10 ^ k := by
  rw [decDigits_eq]
  split
  · subst n
    simp [hk, Nat.pos_pow_of_pos]
  · rename_i hn
    rw [List.length_reverse]
    constructor
    · intro h
      calc n < 10 ^ (Nat.digits 10 n).length :=
              Nat.lt_base_pow_length_digits (by norm_num)
        _ ≤ 10 ^ k := Nat.pow_le_pow_right (by norm_num) h
    · intro h
      by_contra hlt
      push_neg at hlt
      have h1 : 10 ^ (k + 1) ≤ 10 ^ (Nat.digits 10 n).length :=
        Nat.pow_le_pow_right (by norm_num) hlt
      have h2 : 10 ^ (Nat.digits 10 n).length ≤ 10 * n :=
        Nat.base_pow_length_digits_le 10 n (by norm_num) hn
      have : 10 ^ (k + 1) = 10 * 10 ^ k := by ring
      omega

theorem encode_length_eq (n : Nat) :
    (encode_int n).length = (decDigits n).length := by
  simp [encode_int]

theorem encode_length_pos (n : Nat) : 1 ≤ (encode_int n).length := by
  rw [encode_length_eq]
  cases h : decDigits n with
  | nil => exact absurd h (decDigits_ne_nil n)
  | cons a t => simp

theorem encode_length_le_iff {n k : Nat} (hk : 1 ≤ k) :
    (encode_int n).length ≤ k ↔ n < 10 ^ k := by
  rw [encode_length_eq]; exact decDigits_length_le_iff hk

/-- Encoding a one-digit number gives a single letter. -/
theorem encode_single_digit {d : Nat} (h : d < 10) :
    encode_int d = [digitToLetter d] := by
  have : decDigits d = [d] := by
    rw [decDigits_eq]
    split
    · simp_all
    · rw [Nat.digits_def' (by norm_num : 1 < 10) (by omega)]
      rw [Nat.mod_eq_of_lt h, Nat.div_eq_of_lt h]
      simp
  simp [encode_int, this]

theorem decode_single_digit {d : Nat} (h : d < 10) :
    decode_int_string [digitToLetter d] = d := by
  rw [← encode_single_digit h, decode_encode]

/-! ### Slice lemmas -/

theorem slice_of_append (p q r : List Char) :
    slice (p ++ q ++ r) p.length q.length = q := by
  unfold slice
  rw [List.append_assoc, List.drop_left, List.take_left]

theorem slice_of_append_one (p r : List Char) (c : Char) :
    slice (p ++ [c] ++ r) p.length 1 = [c] := by
  have := slice_of_append p [c] r
  simpa using this

/-- Slicing out the middle part `q` of `p ++ [c] ++ (q ++ r)`. -/
theorem slice_mid (p q r : List Char) (c : Char) :
    slice (p ++ [c] ++ (q ++ r)) (p.length + 1) q.length = q := by
  have h := slice_of_append (p ++ [c]) q r
  rw [List.append_assoc] at h
  simpa using h

/-- Slicing out the third part `q` of `p ++ [c] ++ (s ++ (q ++ r))`. -/
theorem slice_mid2 (p s q r : List Char) (c : Char) :
    slice (p ++ [c] ++ (s ++ (q ++ r))) (p.length + 1 + s.length) q.length = q := by
  have h := slice_of_append (p ++ [c] ++ s) q r
  rw [List.append_assoc, List.append_assoc] at h
  simpa [Nat.add_assoc, Nat.add_comm 1 s.length] using h

/-! ### Reader round-trip lemmas -/

/-- Reading a single-length-prefixed integer written by
`encode_with_length` from the middle of a blob, provided the encoded
value is at most nine letters long (`n < 10^9`). -/
theorem read_int_of_encode (p r : List Char) {n : Nat} (h : n < 10 ^ 9) :
    read_int (p ++ encode_with_length n ++ r) p.length
      = (n, p.length + (encode_with_length n).length) := by
  have hEle : (encode_int n).length ≤ 9 := (encode_length_le_iff (by norm_num)).mpr h
  have hEpos : 1 ≤ (encode_int n).length := encode_length_pos n
  have hL : encode_int (encode_int n).length = [digitToLetter (encode_int n).length] :=
    encode_single_digit (by omega)
  have hwl : (encode_with_length n).length = 1 + (encode_int n).length := by
    simp [encode_with_length, hL]; omega
  have hblob : p ++ encode_with_length n ++ r
      = p ++ [digitToLetter (encode_int n).length] ++ (encode_int n ++ r) := by
    simp [encode_with_length, hL]
  rw [hblob]
  set blob := p ++ [digitToLetter (encode_int n).length] ++ (encode_int n ++ r) with hb
  have hlen : blob.length = p.length + 1 + (encode_int n).length + r.length := by
    rw [hb]; simp; omega
  have hd1 : decode_int_string (slice blob p.length 1) = (encode_int n).length := by
    rw [hb, slice_of_append_one]
    exact decode_single_digit (by omega)
  have hs2 : slice blob (p.length + 1) (encode_int n).length = encode_int n := by
    rw [hb]; exact slice_mid p (encode_int n) r _
  unfold read_int
  rw [if_neg (by omega), hd1, if_neg (by omega), hs2, decode_encode]
  refine Prod.ext rfl ?_
  simp [hwl]; omega

/-- Reading a double-length-prefixed integer written by
`encode_with_double_length`; needs the encoded value shorter than
`10^9` letters, which any concretely representable number satisfies. -/
theorem read_int2_of_encode (p r : List Char) {n : Nat}
    (h : (encode_int n).length < 10 ^ 9) :
    read_int2 (p ++ encode_with_double_length n ++ r) p.length
      = (n, p.length + (encode_with_double_length n).length) := by
  have hEpos : 1 ≤ (encode_int n).length := encode_length_pos n
  have hL1le : (encode_int (encode_int n).length).length ≤ 9 :=
    (encode_length_le_iff (by norm_num)).mpr h
  have hL1pos : 1 ≤ (encode_int (encode_int n).length).length :=
    encode_length_pos (encode_int n).length
  have hL2 : encode_int (encode_int (encode_int n).length).length
      = [digitToLetter (encode_int (encode_int n).length).length] :=
    encode_single_digit (by omega)
  have hwl : (encode_with_double_length n).length
      = 1 + (encode_int (encode_int n).length).length + (encode_int n).length := by
    simp [encode_with_double_length, hL2]; omega
  have hblob : p ++ encode_with_double_length n ++ r
      = p ++ [digitToLetter (encode_int (encode_int n).length).length]
          ++ (encode_int (encode_int n).length ++ (encode_int n ++ r)) := by
    simp [encode_with_double_length, hL2]
  rw [hblob]
  set c := digitToLetter (encode_int (encode_int n).length).length with hc
  set blob := p ++ [c] ++ (encode_int (encode_int n).length ++ (encode_int n ++ r)) with hb
  have hlen : blob.length = p.length + 1 + (encode_int (encode_int n).length).length
      + (encode_int n).length + r.length := by
    rw [hb]; simp; omega
  have hd1 : decode_int_string (slice blob p.length 1)
      = (encode_int (encode_int n).length).length := by
    rw [hb, slice_of_append_one, hc]
    exact decode_single_digit (by omega)
  have hd2 : decode_int_string (slice blob (p.length + 1)
      (encode_int (encode_int n).length).length) = (encode_int n).length := by
    rw [hb, slice_mid p _ _ c, decode_encode]
  have hs3 : slice blob (p.length + 1 + (encode_int (encode_int n).length).length)
      (encode_int n).length = encode_int n := by
    rw [hb]; exact slice_mid2 p _ (encode_int n) r c
  unfold read_int2
  rw [if_neg (by omega), hd1, if_neg (by omega), hd2, if_neg (by omega), hs3,
    decode_encode]
  refine Prod.ext rfl ?_
  simp [hwl]; omega

/-- The tag encoding used on the wire: a single letter holding the
length followed by the raw characters. -/
def encode_str (s : List Char) : List Char := encode_int s.length ++ s

/-- Reading a length-prefixed string of at most nine characters. -/
theorem read_string_of_encode (p r : List Char) {t : List Char}
    (h : t.length ≤ 9) :
    read_string (p ++ encode_str t ++ r) p.length
      = (t, p.length + (encode_str t).length) := by
  have hL : encode_int t.length = [digitToLetter t.length] :=
    encode_single_digit (by omega)
  have hsl : (encode_str t).length = 1 + t.length := by
    simp [encode_str, hL]; omega
  have hblob : p ++ encode_str t ++ r
      = p ++ [digitToLetter t.length] ++ (t ++ r) := by
    simp [encode_str, hL]
  rw [hblob]
  set blob := p ++ [digitToLetter t.length] ++ (t ++ r) with hb
  have hlen : blob.length = p.length + 1 + t.length + r.length := by
    rw [hb]; simp; omega
  have hd1 : decode_int_string (slice blob p.length 1) = t.length := by
    rw [hb, slice_of_append_one]
    exact decode_single_digit (by omega)
  have hs2 : slice blob (p.length + 1) t.length = t := by
    rw [hb]; exact slice_mid p t r _
  unfold read_string
  rw [if_neg (by omega), hd1, if_neg (by omega), hs2]
  refine Prod.ext rfl ?_
  simp [hsl]; omega

/-! ### Claim C2: length-prefixed round trips -/

/-- C2 counterexample: at `n = 10^9` the encoded value is ten letters
long, so the single length prefix itself needs two letters; `read_int`
reads only the first prefix letter (the digit 1), consumes one letter of
the second, and returns 0 with the cursor at 2 instead of
`10^9` with the cursor at 12.  This refutes the claim for
"every integer n ≥ 0" in its single-prefix half. -/
theorem C2_counterexample :
    read_int (([] : List Char) ++ encode_with_length 1000000000) 0 = (0, 2)
      ∧ (encode_with_length 1000000000).length = 12 := by
  constructor <;> decide

/-- C2 amended: for every `n < 10^9` (so that the encoded value fits in
nine letters, as the spec itself notes) and every prefix `p`, both the
single- and the double-length-prefixed readers return `n` and advance
the cursor past exactly the written bytes. -/
theorem C2_reader_roundtrip (p : List Char) (n : Nat) (h : n < 10 ^ 9) :
    read_int (p ++ encode_with_length n) p.length
        = (n, p.length + (encode_with_length n).length)
      ∧ read_int2 (p ++ encode_with_double_length n) p.length
        = (n, p.length + (encode_with_double_length n).length) := by
  constructor
  · have := read_int_of_encode p [] h
    simpa using this
  · have hlen : (encode_int n).length < 10 ^ 9 := by
      have : (encode_int n).length ≤ 9 := (encode_length_le_iff (by norm_num)).mpr h
      omega
    have := read_int2_of_encode p [] hlen
    simpa using this

/-- Witness for C2_reader_roundtrip at `p = "o"`, `n = 42`. -/
theorem C2_reader_roundtrip_witness :
    (42 : Nat) < 10 ^ 9
      ∧ (read_int (['o'] ++ encode_with_length 42) 1
            = (42, 1 + (encode_with_length 42).length)
          ∧ read_int2 (['o'] ++ encode_with_double_length 42) 1
            = (42, 1 + (encode_with_double_length 42).length)) :=
  ⟨by decide, by simpa using C2_reader_roundtrip ['o'] 42 (by decide)⟩

/-! ### Claim C3: fail-soft decoding -/

/-- Any string containing a character outside the ten-letter alphabet
decodes to zero. -/
theorem mapM_letterToDigit_none :
    ∀ (s : List Char), (∃ c ∈ s, letterToDigit c = none) →
      s.mapM letterToDigit = none := by
  intro s
  induction s with
  | nil => rintro ⟨c, hc, -⟩; simp at hc
  | cons a t ih =>
    rintro ⟨c, hc, hnone⟩
    rw [List.mapM_cons]
    cases ha : letterToDigit a with
    | none => rfl
    | some d =>
      rcases List.mem_cons.mp hc with h1 | h1
      · subst h1; rw [ha] at hnone; exact absurd hnone (by simp)
      · rw [ih ⟨c, h1, hnone⟩]; rfl

theorem decode_eq_zero_of_invalid {s : List Char}
    (h : ∃ c ∈ s, letterToDigit c = none) : decode_int_string s = 0 := by
  unfold decode_int_string
  rw [mapM_letterToDigit_none s h]
  simp

/-- C3 counterexample: on the truncated blob `"w"` (declared length 2,
no payload) `read_int` returns value 0 but leaves the cursor at 1, one
past the length prefix — not at its input position 0 as claimed. -/
theorem C3_counterexample :
    read_int ['w'] 0 = (0, 1) ∧ (1 : Nat) ≠ 0 := by
  constructor <;> decide

/-- C3 amended: the decoders are fail-soft in the value (zero for the
integer readers, the raw — possibly empty — slice for `read_string`),
but the cursor is left at the input position only when that position is
already at or past the end of the blob.  When the declared length
overruns the end, the cursor stops just after the length prefix it has
consumed; a letter outside the alphabet inside the read region still
advances the cursor past the whole region; and `read_string` never
inspects the alphabet: on an in-bounds declared region it returns the
raw region itself (not the empty string) with the cursor past it. -/
theorem C3_fail_soft (blob : List Char) (i : Nat) :
    (blob.length ≤ i →
        read_int blob i = (0, i) ∧ read_int2 blob i = (0, i)
          ∧ read_string blob i = ([], i))
      ∧ (∀ L, i < blob.length → L = decode_int_string (slice blob i 1) →
          blob.length < i + 1 + L →
          read_int blob i = (0, i + 1) ∧ read_string blob i = ([], i + 1))
      ∧ (∀ LL, i < blob.length → LL = decode_int_string (slice blob i 1) →
          blob.length < i + 1 + LL → read_int2 blob i = (0, i + 1))
      ∧ (∀ LL L, i < blob.length → LL = decode_int_string (slice blob i 1) →
          i + 1 + LL ≤ blob.length →
          L = decode_int_string (slice blob (i + 1) LL) →
          blob.length < i + 1 + LL + L →
          read_int2 blob i = (0, i + 1 + LL))
      ∧ (∀ L, i < blob.length → L = decode_int_string (slice blob i 1) →
          i + 1 + L ≤ blob.length →
          (∃ c ∈ slice blob (i + 1) L, letterToDigit c = none) →
          read_int blob i = (0, i + 1 + L))
      ∧ (∀ LL L, i < blob.length → LL = decode_int_string (slice blob i 1) →
          i + 1 + LL ≤ blob.length →
          L = decode_int_string (slice blob (i + 1) LL) →
          i + 1 + LL + L ≤ blob.length →
          (∃ c ∈ slice blob (i + 1 + LL) L, letterToDigit c = none) →
          read_int2 blob i = (0, i + 1 + LL + L))
      ∧ (∀ L, i < blob.length → L = decode_int_string (slice blob i 1) →
          i + 1 + L ≤ blob.length →
          read_string blob i = (slice blob (i + 1) L, i + 1 + L)) := by
  refine ⟨?_, ?_, ?_, ?_, ?_, ?_, ?_⟩
  · intro h
    unfold read_int read_int2 read_string
    rw [if_pos h, if_pos h, if_pos h]
    exact ⟨rfl, rfl, rfl⟩
  · intro L h hL htr
    subst hL
    constructor
    · simp only [read_int]
      rw [if_neg (by omega), if_pos (by omega)]
    · simp only [read_string]
      rw [if_neg (by omega), if_pos (by omega)]
  · intro LL h hLL htr
    subst hLL
    simp only [read_int2]
    rw [if_neg (by omega), if_pos (by omega)]
  · intro LL L h hLL hfit hL htr
    subst hLL; subst hL
    simp only [read_int2]
    rw [if_neg (by omega), if_neg (by omega), if_pos (by omega)]
  · intro L h hL hfit hbad
    subst hL
    simp only [read_int]
    rw [if_neg (by omega), if_neg (by omega), decode_eq_zero_of_invalid hbad]
  · intro LL L h hLL hfit hL hfit2 hbad
    subst hLL; subst hL
    simp only [read_int2]
    rw [if_neg (by omega), if_neg (by omega), if_neg (by omega),
      decode_eq_zero_of_invalid hbad]
  · intro L h hL hfit
    subst hL
    simp only [read_string]
    rw [if_neg (by omega), if_neg (by omega)]

/-- Witness for C3_fail_soft on concrete blobs: the end-of-input case at
`i = 3` on `"w"`, the truncation case on `"w"`, the invalid-letter case
on `"yz"`, and the in-bounds raw-region `read_string` case on `"yz"`
(the region `"z"` is outside the alphabet yet returned verbatim). -/
theorem C3_fail_soft_witness :
    (read_int ['w'] 3 = (0, 3) ∧ read_int2 ['w'] 3 = (0, 3)
        ∧ read_string ['w'] 3 = ([], 3))
      ∧ read_int ['w'] 0 = (0, 1)
      ∧ read_int ['y', 'z'] 0 = (0, 2)
      ∧ read_string ['y', 'z'] 0 = (['z'], 2) := by
  refine ⟨(C3_fail_soft ['w'] 3).1 (by decide), ?_, ?_, ?_⟩
  · exact ((C3_fail_soft ['w'] 0).2.1 2 (by decide) (by decide) (by decide)).1
  · exact (C3_fail_soft ['y', 'z'] 0).2.2.2.2.1 1 (by decide) (by decide)
      (by decide) ⟨'z', by decide, by decide⟩
  · have h := (C3_fail_soft ['y', 'z'] 0).2.2.2.2.2.2 1 (by decide) (by decide)
      (by decide)
    simpa using h

/-! ### Key/value blob codec (source lines 548-594) -/

/-- Python dict assignment `d[k] = v` on an insertion-ordered
association list: update in place if the key exists, else append. -/
def dinsertKV (d : List (Nat × Nat)) (k v : Nat) : List (Nat × Nat) :=
  if (d.lookup k).isSome then d.map (fun kv => if kv.1 = k then (k, v) else kv)
  else d ++ [(k, v)]

/-- The concatenated `encode_with_length(k) + encode_with_length(v)`
pairs written by the loop in `encode_kv_blob`. -/
def kvData : List (Nat × Nat) → List Char
  | [] => []
  | (k, v) :: t => encode_with_length k ++ (encode_with_length v ++ kvData t)

/-- `encode_kv_blob` (lines 548-568).  The iteration order of the dict
is its insertion order, which the association list carries. -/
def encode_kv_blob (m : List (Nat × Nat)) : List Char :=
  if m = [] then ['y', 'q', 'y', 'm']
  else
    let data := kvData m
    let count := m.length
    let countEncoded := encode_int count
    let countLen := encode_int countEncoded.length
    let data2 := countLen ++ countEncoded ++ data
    let header := encode_int data2.length
    let headerLen := encode_int header.length
    headerLen ++ header ++ data2

/-- The `for _ in range(count)` loop of `parse_kv_blob`. -/
def kvLoop (blob : List Char) : Nat → Nat → List (Nat × Nat) → List (Nat × Nat)
  | 0, _, acc => acc
  | n + 1, i, acc =>
    let ki := read_int blob i
    let vi := read_int blob ki.2
    kvLoop blob n vi.2 (dinsertKV acc ki.1 vi.1)

/-- `parse_kv_blob` (lines 571-594).  When `1 + header_len` is not a
valid index, the Python indexing raises and the bare `except` returns
the (still empty) result. -/
def parse_kv_blob (blob : List Char) : List (Nat × Nat) :=
  if blob.length < 4 then []
  else
    let headerLen := decode_int_string (slice blob 0 1)
    let i := 1 + headerLen
    if blob.length ≤ i then []
    else
      let countLen := decode_int_string (slice blob i 1)
      let i := i + 1
      let count := decode_int_string (slice blob i countLen)
      let i := i + countLen
      kvLoop blob count i []

/-! ### KV round-trip lemmas -/

theorem lookup_eq_none_of_not_mem {k : Nat} :
    ∀ {acc : List (Nat × Nat)}, k ∉ acc.map Prod.fst → acc.lookup k = none := by
  intro acc
  induction acc with
  | nil => intro _; rfl
  | cons a t ih =>
    intro h
    simp only [List.map_cons, List.mem_cons] at h
    push_neg at h
    obtain ⟨a1, a2⟩ := a
    have hne : (k == a1) = false := by simpa using h.1
    simp only [List.lookup, hne]
    exact ih h.2

theorem dinsertKV_append {acc : List (Nat × Nat)} {k v : Nat}
    (h : k ∉ acc.map Prod.fst) : dinsertKV acc k v = acc ++ [(k, v)] := by
  unfold dinsertKV
  rw [lookup_eq_none_of_not_mem h]
  simp

theorem foldl_dinsertKV (m : List (Nat × Nat)) :
    ∀ (acc : List (Nat × Nat)), (m.map Prod.fst).Nodup →
      (∀ k ∈ m.map Prod.fst, k ∉ acc.map Prod.fst) →
      m.foldl (fun d kv => dinsertKV d kv.1 kv.2) acc = acc ++ m := by
  induction m with
  | nil => intro acc _ _; simp
  | cons a t ih =>
    intro acc hnd hdisj
    obtain ⟨k0, v0⟩ := a
    simp only [List.map_cons, List.nodup_cons] at hnd
    simp only [List.foldl_cons]
    rw [dinsertKV_append (hdisj k0 (by simp))]
    have hstep : ∀ k ∈ t.map Prod.fst, k ∉ (acc ++ [(k0, v0)]).map Prod.fst := by
      intro k hk
      simp only [List.map_append, List.mem_append, List.map_cons, List.map_nil,
        List.mem_singleton]
      push_neg
      refine ⟨hdisj k (by simp [hk]), ?_⟩
      intro heq
      subst heq
      exact hnd.1 hk
    rw [ih (acc ++ [(k0, v0)]) hnd.2 hstep]
    simp

theorem kvData_bound (m : List (Nat × Nat))
    (hb : ∀ kv ∈ m, kv.1 < 10 ^ 9 ∧ kv.2 < 10 ^ 9) :
    (kvData m).length ≤ 20 * m.length := by
  induction m with
  | nil => simp [kvData]
  | cons a t ih =>
    have ha := hb a (by simp)
    have h1 : (encode_int a.1).length ≤ 9 :=
      (encode_length_le_iff (by norm_num)).mpr ha.1
    have h2 : (encode_int a.2).length ≤ 9 :=
      (encode_length_le_iff (by norm_num)).mpr ha.2
    have hL1 : (encode_int (encode_int a.1).length).length ≤ 1 := by
      rw [encode_length_le_iff (by norm_num)]
      omega
    have hL2 : (encode_int (encode_int a.2).length).length ≤ 1 := by
      rw [encode_length_le_iff (by norm_num)]
      omega
    have ht := ih (fun kv hkv => hb kv (by simp [hkv]))
    obtain ⟨x, y⟩ := a
    simp only [kvData, List.length_append, List.length_cons,
      encode_with_length] at *
    omega

theorem kvLoop_encode (m : List (Nat × Nat)) :
    ∀ (p : List Char) (acc : List (Nat × Nat)),
      (∀ kv ∈ m, kv.1 < 10 ^ 9 ∧ kv.2 < 10 ^ 9) →
      kvLoop (p ++ kvData m) m.length p.length acc
        = m.foldl (fun d kv => dinsertKV d kv.1 kv.2) acc := by
  induction m with
  | nil => intro p acc _; simp [kvData, kvLoop]
  | cons a t ih =>
    intro p acc hb
    obtain ⟨k, v⟩ := a
    have hk : k < 10 ^ 9 := (hb (k, v) (by simp)).1
    have hv : v < 10 ^ 9 := (hb (k, v) (by simp)).2
    have hsplit : p ++ kvData ((k, v) :: t)
        = p ++ encode_with_length k ++ (encode_with_length v ++ kvData t) := by
      simp [kvData, List.append_assoc]
    simp only [List.length_cons, kvLoop, List.foldl_cons]
    rw [hsplit, read_int_of_encode p _ hk]
    dsimp only
    have hsplit2 : p ++ encode_with_length k ++ (encode_with_length v ++ kvData t)
        = p ++ encode_with_length k ++ encode_with_length v ++ kvData t := by
      simp [List.append_assoc]
    rw [hsplit2]
    have hr2 := read_int_of_encode (p ++ encode_with_length k) (kvData t) hv
    simp only [List.length_append] at hr2
    rw [hr2]
    dsimp only
    have hfin := ih (p ++ encode_with_length k ++ encode_with_length v)
      (dinsertKV acc k v) (fun kv hkv => hb kv (by simp [hkv]))
    simp only [List.length_append] at hfin
    exact hfin

/-- Slice of the middle component, with the index and length supplied
as separate equalities so it can be applied at arithmetic variants. -/
theorem slice_at (p q r : List Char) (i L : Nat)
    (hi : i = p.length) (hL : L = q.length) :
    slice (p ++ q ++ r) i L = q := by
  subst hi
  subst hL
  exact slice_of_append p q r

/-- C4 counterexample: the map `{0: 10^9}` does not survive the round
trip — the value's encoding is ten letters, its length prefix no longer
fits in one letter, and the value comes back as 0. -/
theorem C4_counterexample :
    parse_kv_blob (encode_kv_blob [(0, 1000000000)]) = [(0, 0)]
      ∧ [(0, 0)] ≠ [(0, 1000000000)] := by
  constructor <;> decide

/-- C4 amended: for every key/value map whose keys are distinct (as in
a Python dict) and whose keys and values are below `10^9` (the nine
letter bound of the single-length-prefixed encoding), with at most
`10^7` entries (so the envelope header also fits its one-letter length
prefix), parsing the encoded blob returns the same map. -/
theorem C4_kv_roundtrip (m : List (Nat × Nat))
    (hnd : (m.map Prod.fst).Nodup)
    (hb : ∀ kv ∈ m, kv.1 < 10 ^ 9 ∧ kv.2 < 10 ^ 9)
    (hlen : m.length ≤ 10 ^ 7) :
    parse_kv_blob (encode_kv_blob m) = m := by
  by_cases hm : m = []
  · subst hm; decide
  · have hml : 1 ≤ m.length := List.length_pos.mpr hm
    have hdata := kvData_bound m hb
    have hexp : encode_kv_blob m
        = encode_int (encode_int (encode_int (encode_int m.length).length
              ++ encode_int m.length ++ kvData m).length).length
          ++ encode_int (encode_int (encode_int m.length).length
              ++ encode_int m.length ++ kvData m).length
          ++ (encode_int (encode_int m.length).length
              ++ encode_int m.length ++ kvData m) := by
      simp only [encode_kv_blob, if_neg hm]
    rw [hexp]
    set data := kvData m with hdataDef
    set C := encode_int m.length with hCdef
    have hCle : C.length ≤ 8 := by
      rw [hCdef, encode_length_le_iff (by norm_num)]
      calc m.length ≤ 10 ^ 7 := hlen
        _ < 10 ^ 8 := by norm_num
    have hCpos : 1 ≤ C.length := encode_length_pos _
    have hcl : encode_int C.length = [digitToLetter C.length] :=
      encode_single_digit (by omega)
    rw [hcl]
    set data2 := [digitToLetter C.length] ++ C ++ data with hdata2
    have hdata2len : data2.length = 1 + C.length + data.length := by
      rw [hdata2]; simp; omega
    have hdata2lt : data2.length < 10 ^ 9 := by
      rw [hdata2len]
      calc 1 + C.length + data.length ≤ 1 + 8 + 20 * m.length := by omega
        _ ≤ 9 + 20 * 10 ^ 7 := by omega
        _ < 10 ^ 9 := by norm_num
    set H := encode_int data2.length with hHdef
    have hHle : H.length ≤ 9 := by
      rw [hHdef, encode_length_le_iff (by norm_num)]
      exact hdata2lt
    have hHpos : 1 ≤ H.length := encode_length_pos _
    have hhl : encode_int H.length = [digitToLetter H.length] :=
      encode_single_digit (by omega)
    rw [hhl]
    -- nonempty data keeps every cursor in range
    have hdatapos : 4 ≤ data.length := by
      rw [hdataDef]
      cases m with
      | nil => exact absurd rfl hm
      | cons a t =>
        obtain ⟨k, v⟩ := a
        have h1 := encode_length_pos k
        have h2 := encode_length_pos (encode_int k).length
        have h3 := encode_length_pos v
        have h4 := encode_length_pos (encode_int v).length
        simp only [kvData, List.length_append, encode_with_length]
        omega
    have hbloblen : ([digitToLetter H.length] ++ H ++ data2).length
        = 1 + H.length + data2.length := by simp; omega
    have hs0 : slice ([digitToLetter H.length] ++ H ++ data2) 0 1
        = [digitToLetter H.length] := by
      rw [show [digitToLetter H.length] ++ H ++ data2
        = [] ++ [digitToLetter H.length] ++ (H ++ data2) by simp]
      exact slice_at [] [digitToLetter H.length] (H ++ data2) 0 1 (by simp) (by simp)
    have hs1 : slice ([digitToLetter H.length] ++ H ++ data2) (1 + H.length) 1
        = [digitToLetter C.length] := by
      rw [hdata2]
      rw [show [digitToLetter H.length] ++ H ++ ([digitToLetter C.length] ++ C ++ data)
        = ([digitToLetter H.length] ++ H) ++ [digitToLetter C.length] ++ (C ++ data) by
          simp [List.append_assoc]]
      exact slice_at ([digitToLetter H.length] ++ H) [digitToLetter C.length]
        (C ++ data) (1 + H.length) 1 (by simp; omega) (by simp)
    have hs2 : slice ([digitToLetter H.length] ++ H ++ data2) (1 + H.length + 1)
        C.length = C := by
      rw [hdata2]
      rw [show [digitToLetter H.length] ++ H ++ ([digitToLetter C.length] ++ C ++ data)
        = ([digitToLetter H.length] ++ H ++ [digitToLetter C.length]) ++ C ++ data by
          simp [List.append_assoc]]
      exact slice_at ([digitToLetter H.length] ++ H ++ [digitToLetter C.length]) C
        data (1 + H.length + 1) C.length (by simp; omega) rfl
    have hkvl := kvLoop_encode m
      ([digitToLetter H.length] ++ H ++ [digitToLetter C.length] ++ C) [] hb
    rw [← hdataDef] at hkvl
    rw [foldl_dinsertKV m [] hnd (by simp)] at hkvl
    simp only [List.nil_append] at hkvl
    have hblobshape : [digitToLetter H.length] ++ H ++ data2
        = ([digitToLetter H.length] ++ H ++ [digitToLetter C.length] ++ C) ++ data := by
      rw [hdata2]; simp [List.append_assoc]
    simp only [parse_kv_blob]
    rw [if_neg (by omega)]
    rw [hs0, decode_single_digit (by omega)]
    rw [if_neg (by omega)]
    rw [hs1, decode_single_digit (by omega)]
    rw [hs2, show decode_int_string C = m.length by
      rw [hCdef]; exact decode_encode m.length]
    rw [hblobshape]
    rw [show 1 + H.length + 1 + C.length
      = ([digitToLetter H.length] ++ H ++ [digitToLetter C.length] ++ C).length by
        simp; omega]
    exact hkvl

/-- Witness for C4_kv_roundtrip on the two-entry map `{3: 7, 0: 2}`. -/
theorem C4_kv_roundtrip_witness :
    parse_kv_blob (encode_kv_blob [(3, 7), (0, 2)]) = [(3, 7), (0, 2)] :=
  C4_kv_roundtrip [(3, 7), (0, 2)] (by decide) (by decide) (by decide)

/-! ### Claim C9: profile-ID rejection -/

/-- C9: for every 14-character `currentSave` and every integer
`trainerId`, `compute_profile_id` returns `none` exactly when the
character-value sum is 0, or `trainerId < 333`, or `trainerId > 99999`;
in particular it returns `none` for `trainerId ∈ {0, 332, 100000}`. -/
theorem C9_profile_id_rejection (cs : List Char) (t : Int)
    (hlen : cs.length = 14) :
    (compute_profile_id cs t = none
        ↔ (cs.map char_to_value).sum = 0 ∨ t < 333 ∨ t > 99999)
      ∧ compute_profile_id cs 0 = none
      ∧ compute_profile_id cs 332 = none
      ∧ compute_profile_id cs 100000 = none := by
  have hmain : ∀ (u : Int), compute_profile_id cs u = none
      ↔ (cs.map char_to_value).sum = 0 ∨ u < 333 ∨ u > 99999 := by
    intro u
    simp only [compute_profile_id]
    rw [if_neg (by omega)]
    by_cases hP : (cs.map char_to_value).sum = 0 ∨ u < 333 ∨ 99999 < u
    · rw [if_pos hP]
      simpa using hP
    · rw [if_neg hP]
      simpa using hP
  refine ⟨hmain t, ?_, ?_, ?_⟩
  · exact (hmain 0).mpr (Or.inr (Or.inl (by norm_num)))
  · exact (hmain 332).mpr (Or.inr (Or.inl (by norm_num)))
  · exact (hmain 100000).mpr (Or.inr (Or.inr (by norm_num)))

/-- Witness for C9_profile_id_rejection at the all-`a` save token. -/
theorem C9_profile_id_rejection_witness :
    (List.replicate 14 'a').length = 14
      ∧ ((compute_profile_id (List.replicate 14 'a') 333 = none
            ↔ ((List.replicate 14 'a').map char_to_value).sum = 0
              ∨ (333 : Int) < 333 ∨ (333 : Int) > 99999)
          ∧ compute_profile_id (List.replicate 14 'a') 0 = none
          ∧ compute_profile_id (List.replicate 14 'a') 332 = none
          ∧ compute_profile_id (List.replicate 14 'a') 100000 = none) :=
  ⟨by decide, C9_profile_id_rejection (List.replicate 14 'a') 333 (by decide)⟩

/-! ### Pokemon records (source lines 181-198) -/

/-- The record dict created by `default_pokemon` and mutated by the
delta parser; every key of the Python dict is a field. -/
structure Pokemon where
  id : Nat
  species : Nat
  experience : Nat
  level : Nat
  move1 : Nat
  move2 : Nat
  move3 : Nat
  move4 : Nat
  moveSelected : Nat
  targetType : Nat
  myID : Nat
  position : Nat
  shiny : Nat
  tag : List Char
deriving DecidableEq, Repr

/-- `default_pokemon(poke_id)` with the default `species=1, level=5`
(the parser always calls it with just the id). -/
def default_pokemon (poke_id : Nat) : Pokemon :=
  { id := poke_id, species := 1, experience := 0, level := 5,
    move1 := 33, move2 := 0, move3 := 0, move4 := 0,
    moveSelected := 1, targetType := 1, myID := poke_id,
    position := poke_id, shiny := 0, tag := [] }

/-! ### Python dict of records, keyed by myID -/

abbrev PokeDict := List (Nat × Pokemon)

/-- Python dict assignment `d[k] = p`: update in place, else append. -/
def dset (d : PokeDict) (k : Nat) (p : Pokemon) : PokeDict :=
  if (d.lookup k).isSome then d.map (fun kv => if kv.1 = k then (k, p) else kv)
  else d ++ [(k, p)]

/-- Python `del d[k]`. -/
def ddel (d : PokeDict) (k : Nat) : PokeDict := d.filter (fun kv => kv.1 ≠ k)

/-- `max(d.keys())` over a nonempty dict (0 for the empty one, which
the caller guards). -/
def maxKeys (d : PokeDict) : Nat := (d.map Prod.fst).foldl Nat.max 0

/-- Line 242: `{p["myID"]: p.copy() for p in existing_pokemon}` —
insertion order with later duplicates overwriting in place. -/
def buildDict (existing : List Pokemon) : PokeDict :=
  existing.foldl (fun d p => dset d p.myID p) []

/-! ### Delta parser (source lines 205-484) -/

/-- One field-skipping pass: `read_int2` where the flag is true,
`read_int` otherwise (the Python conditional on the loop index). -/
def skipFields (extra : List Char) : List Bool → Nat → Nat
  | [], i => i
  | b :: bs, i =>
      skipFields extra bs (if b then (read_int2 extra i).2 else (read_int extra i).2)

/-- Skip pattern of the 11 capture fields in the myID=0 skip branch
(lines 308-309): indices 1 and 9 are read as doubles. -/
def capSkipPat : List Bool :=
  [false, true, false, false, false, false, false, false, false, true, false]

/-- Skip pattern of the 10 trade fields (lines 323-324): index 1 is
read as a double. -/
def tradeSkipPat : List Bool :=
  [false, true, false, false, false, false, false, false, false, false]

/-- The skip loop for invalid myID=0 entries (lines 305-325). -/
def skipChangesZ (extra : List Char) : Nat → Nat → Nat
  | 0, i => i
  | n + 1, i =>
    let r := read_int extra i
    let ct := r.1
    let i := r.2
    let i :=
      if ct = 1 then (read_string extra (skipFields extra capSkipPat i)).2
      else if ct = 2 then (read_int extra i).2
      else if ct = 3 then (read_int2 extra i).2
      else if ct = 4 then skipFields extra [false, false, false, false] i
      else if ct = 5 ∨ ct = 6 ∨ ct = 7 ∨ ct = 8 then (read_int extra i).2
      else if ct = 9 then (read_string extra i).2
      else if ct = 10 then skipFields extra tradeSkipPat i
      else i
    skipChangesZ extra n i

/-- The skip loop for unknown nonzero myID entries (lines 363-371);
note types 1 and 10 have no payload case here. -/
def skipChangesU (extra : List Char) : Nat → Nat → Nat
  | 0, i => i
  | n + 1, i =>
    let r := read_int extra i
    let ct := r.1
    let i := r.2
    let i :=
      if ct = 2 then (read_int extra i).2
      else if ct = 3 then (read_int2 extra i).2
      else if ct = 4 then skipFields extra [false, false, false, false] i
      else if ct = 5 ∨ ct = 6 ∨ ct = 7 ∨ ct = 8 then (read_int extra i).2
      else if ct = 9 then (read_string extra i).2
      else i
    skipChangesU extra n i

/-- The body of one iteration of the change loop (lines 382-471):
dispatch on the change type just read, consume its payload, update the
record; returns the cursor and the updated record. -/
def applyOneChange (extra : List Char) (ct i : Nat) (p : Pokemon) :
    Nat × Pokemon :=
  if ct = 1 then
    let r1 := read_int extra i
    let r2 := read_int2 extra r1.2
    let r3 := read_int extra r2.2
    let r4 := read_int extra r3.2
    let r5 := read_int extra r4.2
    let r6 := read_int extra r5.2
    let r7 := read_int extra r6.2
    let r8 := read_int extra r7.2
    let r9 := read_int extra r8.2
    let r10 := read_int extra r9.2
    let r11 := read_int extra r10.2
    let r12 := read_string extra r11.2
    let shiny :=
      if [1, 2, 3, 4, 5, 6, 151, 153, 168, 182, 854].contains r11.1 then 1
      else if [180, 555, 855].contains r11.1 then 2
      else if r11.1 = r1.1 then 1
      else 0
    (r12.2,
      { p with
        species := r1.1
        experience := r2.1
        level := r3.1
        move1 := r4.1
        move2 := r5.1
        move3 := r6.1
        move4 := r7.1
        moveSelected := r8.1
        targetType := r9.1
        position := r10.1
        shiny := shiny
        tag := r12.1 })
  else if ct = 2 then
    let r1 := read_int extra i
    (r1.2, { p with level := r1.1 })
  else if ct = 3 then
    let r1 := read_int2 extra i
    (r1.2, { p with experience := r1.1 })
  else if ct = 4 then
    let r1 := read_int extra i
    let r2 := read_int extra r1.2
    let r3 := read_int extra r2.2
    let r4 := read_int extra r3.2
    (r4.2,
      { p with
        move1 := r1.1
        move2 := r2.1
        move3 := r3.1
        move4 := r4.1 })
  else if ct = 5 then
    let r1 := read_int extra i
    (r1.2, { p with moveSelected := r1.1 })
  else if ct = 6 then
    let r1 := read_int extra i
    (r1.2, { p with species := r1.1 })
  else if ct = 7 then
    let r1 := read_int extra i
    (r1.2, { p with targetType := r1.1 })
  else if ct = 8 then
    let r1 := read_int extra i
    (r1.2, { p with position := r1.1 })
  else if ct = 9 then
    let r1 := read_string extra i
    (r1.2, { p with tag := r1.1 })
  else if ct = 10 then
    let r1 := read_int extra i
    let r2 := read_int2 extra r1.2
    let r3 := read_int extra r2.2
    let r4 := read_int extra r3.2
    let r5 := read_int extra r4.2
    let r6 := read_int extra r5.2
    let r7 := read_int extra r6.2
    let r8 := read_int extra r7.2
    let r9 := read_int extra r8.2
    let r10 := read_int extra r9.2
    (r10.2,
      { p with
        species := r1.1
        experience := r2.1
        level := r3.1
        move1 := r4.1
        move2 := r5.1
        move3 := r6.1
        move4 := r7.1
        moveSelected := r8.1
        targetType := r9.1
        position := r10.1 })
  else (i, p)

/-- The change-application loop (lines 377-471): stop early when the
cursor has run past the end, otherwise read the change type and apply
one change, then continue. -/
def applyChanges (extra : List Char) : Nat → Nat → Pokemon → Nat × Pokemon
  | 0, i, p => (i, p)
  | n + 1, i, p =>
    if extra.length ≤ i then (i, p)
    else
      let r := read_int extra i
      let res := applyOneChange extra r.1 r.2 p
      applyChanges extra n res.1 res.2

/-- Lines 373-374 and the change loop: fetch the record (present by
construction in every caller), force its myID, apply the changes and
store the result back. -/
def applyEntry (extra : List Char) (cc my i : Nat) (d : PokeDict) :
    Option (Nat × PokeDict) :=
  let poke := { (d.lookup my).getD (default_pokemon my) with myID := my }
  let res := applyChanges extra cc i poke
  some (res.1, dset d my res.2)

/-- The part of the loop body after the change count and myID have been
read (lines 287-471): myID-0 handling, the four dispatch cases on
whether the record exists and what the first change is, and the change
application. -/
def deltaStepTail (extra : List Char) (cc i my0 : Nat) (d : PokeDict) :
    Option (Nat × PokeDict) :=
  if my0 = 0 ∧ (read_int extra i).1 ≠ 1 then
    some (skipChangesZ extra cc i, d)
  else
    let my := if my0 = 0 then (if d.isEmpty then 0 else maxKeys d) + 1 else my0
    if (d.lookup my).isNone then
      if (read_int extra i).1 = 1 then
        applyEntry extra cc my i (dset d my (default_pokemon my))
      else if (read_int extra i).1 = 8 then
        let ti := (read_int extra i).2
        let newPos := (read_int extra ti).1
        match d.find? (fun kv => kv.2.position == newPos || kv.1 == newPos) with
        | some kv =>
            applyEntry extra cc my i
              (dset (ddel d kv.1) my { kv.2 with myID := my })
        | none =>
            let i := (read_int extra i).2
            let i := (read_int extra i).2
            some (i, d)
      else
        some (skipChangesU extra cc i, d)
    else
      applyEntry extra cc my i d

/-- One iteration of the `while i < len(extra)` loop (lines 259-471).
`none` encodes the `break` on a truncated change count. -/
def deltaStep (extra : List Char) (i : Nat) (d : PokeDict) :
    Option (Nat × PokeDict) :=
  let ccl := decode_int_string (slice extra i 1)
  let i := i + 1
  if extra.length < i + ccl then none
  else
    let cc := decode_int_string (slice extra i ccl)
    let i := i + ccl
    if cc = 0 then some (i, d)
    else
      let rm := read_int2 extra i
      deltaStepTail extra cc rm.2 rm.1 d

/-- The entry loop.  Each iteration consumes at least the one-letter
change-count prefix, so the cursor strictly increases and
`extra.length` fuel is always enough. -/
def deltaLoop (extra : List Char) : Nat → Nat → PokeDict → PokeDict
  | 0, _, d => d
  | fuel + 1, i, d =>
    if extra.length ≤ i then d
    else
      match deltaStep extra i d with
      | none => d
      | some (i2, d2) => deltaLoop extra fuel i2 d2

/-- Line 482: Python `sorted` is a stable sort on the position key
(records always carry a position here). -/
def sortByPosition (l : List Pokemon) : List Pokemon :=
  l.mergeSort (fun p q => p.position ≤ q.position)

/-- The state of `pokemon_by_id` after the `try` block of
`parse_delta_save` (lines 241-476): the copied dict, the envelope
reads, and the entry loop.  The only unguarded indexing in the source
is `extra[i]` when reading the element count; its IndexError is caught
by the bare `except`, leaving the dict as built so far. -/
def deltaDictOf (extra : List Char) (existing : List Pokemon) : PokeDict :=
  let d0 := buildDict existing
  let headerLen := decode_int_string (slice extra 0 1)
  let i := 1 + headerLen
  if extra.length ≤ i then d0
  else
    let countLen := decode_int_string (slice extra i 1)
    let i := i + 1
    let i := i + countLen
    deltaLoop extra extra.length i d0

/-- `parse_delta_save` (lines 205-484): short input returns the list
unchanged; otherwise apply the delta, drop `myID = 0` records, and
sort by position. -/
def parse_delta_save (extra : List Char) (existing : List Pokemon) :
    List Pokemon :=
  if extra.length < 4 then existing
  else
    sortByPosition
      (((deltaDictOf extra existing).filter (fun kv => 0 < kv.1)).map Prod.snd)

/-! ### Delta encoders used to build well-formed test deltas
(wire format of the docstring, lines 205-224) -/

/-- An entry: single-prefixed change count, double-prefixed myID, then
the encoded changes. -/
def mkEntry (cc myID : Nat) (changes : List Char) : List Char :=
  encode_with_length cc ++ (encode_with_double_length myID ++ changes)

/-- The envelope: one-letter header length, header (total body length),
then the body (single-prefixed roster count followed by the entries). -/
def mkDelta (pokeCount : Nat) (entries : List Char) : List Char :=
  encode_int (encode_int (encode_with_length pokeCount ++ entries).length).length
    ++ (encode_int (encode_with_length pokeCount ++ entries).length
        ++ (encode_with_length pokeCount ++ entries))

/-- A needCaptured change (type 1) with its full payload. -/
def mkCapture (species exp level m1 m2 m3 m4 ms tt pos er : Nat)
    (tag : List Char) : List Char :=
  encode_with_length 1
    ++ (encode_with_length species
    ++ (encode_with_double_length exp
    ++ (encode_with_length level
    ++ (encode_with_length m1
    ++ (encode_with_length m2
    ++ (encode_with_length m3
    ++ (encode_with_length m4
    ++ (encode_with_length ms
    ++ (encode_with_length tt
    ++ (encode_with_length pos
    ++ (encode_with_length er
    ++ encode_str tag)))))))))))

/-! ### Dictionary lemmas for the parser -/

theorem lookup_append_of_none {β : Type} {d : List (Nat × β)} {k : Nat}
    (h : d.lookup k = none) (l : List (Nat × β)) :
    (d ++ l).lookup k = l.lookup k := by
  induction d with
  | nil => simp
  | cons a t ih =>
    obtain ⟨a1, a2⟩ := a
    rw [List.lookup_cons] at h
    rw [List.cons_append, List.lookup_cons]
    cases hk : (k == a1) with
    | true => rw [hk] at h; simp at h
    | false =>
      rw [hk] at h
      exact ih h

theorem lookup_of_not_mem_keys {β : Type} {k : Nat} :
    ∀ {d : List (Nat × β)}, k ∉ d.map Prod.fst → d.lookup k = none := by
  intro d
  induction d with
  | nil => intro _; rfl
  | cons a t ih =>
    intro h
    obtain ⟨a1, a2⟩ := a
    simp only [List.map_cons, List.mem_cons] at h
    push_neg at h
    rw [List.lookup_cons]
    have : (k == a1) = false := by simpa using h.1
    rw [this]
    exact ih h.2

theorem mem_keys_of_lookup {β : Type} {k : Nat} {v : β} :
    ∀ {d : List (Nat × β)}, d.lookup k = some v → k ∈ d.map Prod.fst := by
  intro d
  induction d with
  | nil => intro h; simp at h
  | cons a t ih =>
    intro h
    obtain ⟨a1, a2⟩ := a
    rw [List.lookup_cons] at h
    cases hk : (k == a1) with
    | true => simp_all
    | false =>
      rw [hk] at h
      simp only [List.map_cons, List.mem_cons]
      exact Or.inr (ih h)

theorem mem_of_lookup_eq_some {β : Type} {k : Nat} {v : β} :
    ∀ {d : List (Nat × β)}, d.lookup k = some v → (k, v) ∈ d := by
  intro d
  induction d with
  | nil => intro h; simp at h
  | cons a t ih =>
    intro h
    obtain ⟨a1, a2⟩ := a
    rw [List.lookup_cons] at h
    cases hk : (k == a1) with
    | true =>
      rw [hk] at h
      have hk2 : k = a1 := by simpa using hk
      simp only [Option.some.injEq] at h
      simp [hk2, ← h]
    | false =>
      rw [hk] at h
      exact List.mem_cons_of_mem _ (ih h)

theorem dset_lookup_self (d : PokeDict) (k : Nat) (v : Pokemon) :
    (dset d k v).lookup k = some v := by
  unfold dset
  split
  · rename_i h
    induction d with
    | nil => simp at h
    | cons a t ih =>
      obtain ⟨a1, a2⟩ := a
      by_cases hk : a1 = k
      · subst hk
        simp [List.lookup_cons]
      · rw [List.lookup_cons] at h
        have hbeq : (k == a1) = false := by simpa using Ne.symm hk
        rw [hbeq] at h
        rw [List.map_cons, if_neg (by simpa using hk), List.lookup_cons, hbeq]
        exact ih h
  · rename_i h
    have hnone : d.lookup k = none := by
      cases hl : d.lookup k with
      | none => rfl
      | some b => rw [hl] at h; simp at h
    rw [lookup_append_of_none hnone]
    simp [List.lookup_cons]

theorem dset_keys_sub (d : PokeDict) (k : Nat) (v : Pokemon) :
    ∀ x ∈ (dset d k v).map Prod.fst, x = k ∨ x ∈ d.map Prod.fst := by
  intro x hx
  unfold dset at hx
  split at hx
  · simp only [List.map_map, List.mem_map] at hx
    obtain ⟨kv, hkv, hval⟩ := hx
    by_cases hk : kv.1 = k
    · simp only [Function.comp, if_pos hk] at hval
      exact Or.inl hval.symm
    · simp only [Function.comp, if_neg hk] at hval
      exact Or.inr (by simpa [hval] using List.mem_map_of_mem Prod.fst hkv)
  · simp only [List.map_append, List.mem_append] at hx
    rcases hx with hx | hx
    · exact Or.inr hx
    · simp at hx
      exact Or.inl hx

theorem buildDict_keys_sub (R : List Pokemon) :
    ∀ x ∈ (buildDict R).map Prod.fst, x ∈ R.map Pokemon.myID := by
  suffices h : ∀ (acc : PokeDict),
      ∀ x ∈ (R.foldl (fun d p => dset d p.myID p) acc).map Prod.fst,
        x ∈ acc.map Prod.fst ∨ x ∈ R.map Pokemon.myID by
    intro x hx
    rcases h [] x hx with h1 | h1
    · simp at h1
    · exact h1
  induction R with
  | nil => intro acc x hx; exact Or.inl hx
  | cons p t ih =>
    intro acc x hx
    simp only [List.foldl_cons] at hx
    rcases ih (dset acc p.myID p) x hx with h1 | h1
    · rcases dset_keys_sub acc p.myID p x h1 with h2 | h2
      · exact Or.inr (by simp [h2])
      · exact Or.inl h2
    · exact Or.inr (by simp [h1])

/-- The upper bound underlying `max(d.keys())`. -/
theorem le_maxKeys {d : PokeDict} : ∀ kv ∈ d, kv.1 ≤ maxKeys d := by
  suffices h : ∀ (l : List Nat) (a : Nat), a ≤ l.foldl Nat.max a
      ∧ ∀ x ∈ l, x ≤ l.foldl Nat.max a by
    intro kv hkv
    exact (h (d.map Prod.fst) 0).2 kv.1 (List.mem_map_of_mem Prod.fst hkv)
  intro l
  induction l with
  | nil => intro a; exact ⟨le_rfl, by simp⟩
  | cons x t ih =>
    intro a
    constructor
    · calc a ≤ Nat.max a x := Nat.le_max_left a x
        _ ≤ t.foldl Nat.max (Nat.max a x) := (ih (Nat.max a x)).1
    · intro y hy
      rcases List.mem_cons.mp hy with h1 | h1
      · subst h1
        calc y ≤ Nat.max a y := Nat.le_max_right a y
          _ ≤ t.foldl Nat.max (Nat.max a y) := (ih (Nat.max a y)).1
      · exact (ih (Nat.max a x)).2 y h1

theorem lookup_maxKeys_succ (d : PokeDict) : d.lookup (maxKeys d + 1) = none := by
  apply lookup_of_not_mem_keys
  intro hmem
  simp only [List.mem_map] at hmem
  obtain ⟨kv, hkv, hval⟩ := hmem
  have := le_maxKeys kv hkv
  omega

/-! ### Concrete records and deltas for the counterexamples -/

/-- A record whose myID is 0, as can occur in a stored roster. -/
def pokeZero : Pokemon :=
  { id := 1, species := 4, experience := 9, level := 7,
    move1 := 2, move2 := 0, move3 := 0, move4 := 0,
    moveSelected := 1, targetType := 1, myID := 0,
    position := 1, shiny := 0, tag := [] }

/-- Two records sharing position 1, listed with the larger myID first. -/
def pokeTieA : Pokemon := { pokeZero with myID := 2 }

def pokeTieB : Pokemon := { pokeZero with myID := 1 }

/-- A record with myID 5 at position 3. -/
def pokeFive : Pokemon := { pokeZero with myID := 5, position := 3 }

/-- A well-formed delta with a single entry: unknown myID 7, single
change of type 10 (needTrade) with payload
species=2, exp=5, level=2, moves=33/0/0/0, moveSelected=1,
targetType=1, position=3. -/
def tradeDelta : List Char :=
  mkDelta 1 (mkEntry 1 7 (encode_with_length 10
    ++ (encode_with_length 2
    ++ (encode_with_double_length 5
    ++ (encode_with_length 2
    ++ (encode_with_length 33
    ++ (encode_with_length 0
    ++ (encode_with_length 0
    ++ (encode_with_length 0
    ++ (encode_with_length 1
    ++ (encode_with_length 1
    ++ encode_with_length 3)))))))))))

/-- The four-character empty delta envelope (header length 1, header
"4", count length 1, count 0). -/
def emptyDelta : List Char := ['y', 'q', 'y', 'm']

/-! ### Claim C6 -/

/-- C6 counterexample.  First defect: a delta shorter than four
characters returns the roster unchanged, so a stored record with
`myID = 0` survives.  Second defect: ties on position keep dict
insertion order, not ascending myID — the roster `[myID 2, myID 1]`
at equal positions comes back in that same order. -/
theorem C6_counterexample :
    (parse_delta_save [] [pokeZero] = [pokeZero] ∧ pokeZero.myID = 0)
      ∧ (parse_delta_save emptyDelta [pokeTieA, pokeTieB] = [pokeTieA, pokeTieB]
          ∧ pokeTieA.position = pokeTieB.position
          ∧ pokeTieB.myID < pokeTieA.myID) := by
  refine ⟨⟨by decide, by decide⟩, ?_, by decide, by decide⟩
  have h1 : ((deltaDictOf emptyDelta [pokeTieA, pokeTieB]).filter
      (fun kv => 0 < kv.1)).map Prod.snd = [pokeTieA, pokeTieB] := by decide
  simp only [parse_delta_save]
  rw [if_neg (by decide), h1]
  simp only [sortByPosition]
  exact List.mergeSort_of_sorted (by decide)

/-! ### Claim C7 -/

/-- C7 counterexample: the entry of `tradeDelta` has a nonzero unknown
myID and its first (and only) change is type 10, neither needCaptured
nor posChange.  The skip path consumes the change type but not the
ten-field trade payload, the loop resynchronizes inside the payload and
parses it as further entries, and one of those entries overwrites the
level of the existing record 5 with 33.  The roster is not preserved. -/
theorem C7_counterexample :
    parse_delta_save tradeDelta [pokeFive] = [{ pokeFive with level := 33 }]
      ∧ sortByPosition [pokeFive] = [pokeFive]
      ∧ ({ pokeFive with level := 33 } : Pokemon) ≠ pokeFive := by
  refine ⟨?_, ?_, by decide⟩
  · have h1 : ((deltaDictOf tradeDelta [pokeFive]).filter
        (fun kv => 0 < kv.1)).map Prod.snd = [{ pokeFive with level := 33 }] := by
      decide
    simp only [parse_delta_save]
    rw [if_neg (by decide), h1]
    simp [sortByPosition]
  · simp [sortByPosition]

/-! ### myID/key consistency invariant -/

/-- Every dict entry maps its key to a record carrying that key as
myID; the parser maintains this from the copy loop onwards. -/
def IdConsistent (d : PokeDict) : Prop := ∀ kv ∈ d, kv.2.myID = kv.1

theorem applyOneChange_myID (extra : List Char) (ct i : Nat) (p : Pokemon) :
    ((applyOneChange extra ct i p).2).myID = p.myID := by
  unfold applyOneChange
  by_cases h1 : ct = 1
  · rw [if_pos h1]
  rw [if_neg h1]
  by_cases h2 : ct = 2
  · rw [if_pos h2]
  rw [if_neg h2]
  by_cases h3 : ct = 3
  · rw [if_pos h3]
  rw [if_neg h3]
  by_cases h4 : ct = 4
  · rw [if_pos h4]
  rw [if_neg h4]
  by_cases h5 : ct = 5
  · rw [if_pos h5]
  rw [if_neg h5]
  by_cases h6 : ct = 6
  · rw [if_pos h6]
  rw [if_neg h6]
  by_cases h7 : ct = 7
  · rw [if_pos h7]
  rw [if_neg h7]
  by_cases h8 : ct = 8
  · rw [if_pos h8]
  rw [if_neg h8]
  by_cases h9 : ct = 9
  · rw [if_pos h9]
  rw [if_neg h9]
  by_cases h10 : ct = 10
  · rw [if_pos h10]
  rw [if_neg h10]

theorem applyChanges_myID (extra : List Char) :
    ∀ (n i : Nat) (p : Pokemon), ((applyChanges extra n i p).2).myID = p.myID := by
  intro n
  induction n with
  | zero => intro i p; rfl
  | succ n ih =>
    intro i p
    rw [applyChanges]
    split
    · rfl
    · rw [ih, applyOneChange_myID]

theorem idConsistent_dset {d : PokeDict} {k : Nat} {v : Pokemon}
    (hd : IdConsistent d) (hv : v.myID = k) : IdConsistent (dset d k v) := by
  intro kv hkv
  unfold dset at hkv
  split at hkv
  · simp only [List.mem_map] at hkv
    obtain ⟨kv0, h0, hval⟩ := hkv
    by_cases hk : kv0.1 = k
    · rw [if_pos hk] at hval
      rw [← hval]
      exact hv
    · rw [if_neg hk] at hval
      rw [← hval]
      exact hd kv0 h0
  · rcases List.mem_append.mp hkv with h | h
    · exact hd kv h
    · simp only [List.mem_singleton] at h
      rw [h]
      exact hv

theorem idConsistent_ddel {d : PokeDict} {k : Nat}
    (hd : IdConsistent d) : IdConsistent (ddel d k) := by
  intro kv hkv
  exact hd kv (List.mem_of_mem_filter hkv)

theorem idConsistent_buildDict (R : List Pokemon) : IdConsistent (buildDict R) := by
  suffices h : ∀ (acc : PokeDict), IdConsistent acc →
      IdConsistent (R.foldl (fun d p => dset d p.myID p) acc) by
    exact h [] (by intro kv hkv; simp at hkv)
  induction R with
  | nil => intro acc hacc; exact hacc
  | cons p t ih =>
    intro acc hacc
    exact ih (dset acc p.myID p) (idConsistent_dset hacc rfl)

theorem idConsistent_applyEntry {extra : List Char} {cc my i : Nat} {d : PokeDict}
    (hd : IdConsistent d) {i2 : Nat} {d2 : PokeDict}
    (h : applyEntry extra cc my i d = some (i2, d2)) : IdConsistent d2 := by
  simp only [applyEntry, Option.some.injEq, Prod.mk.injEq] at h
  rw [← h.2]
  apply idConsistent_dset hd
  rw [applyChanges_myID]

theorem idConsistent_deltaStepTail {extra : List Char} {cc i my0 : Nat}
    {d : PokeDict} (hd : IdConsistent d) {i2 : Nat} {d2 : PokeDict}
    (h : deltaStepTail extra cc i my0 d = some (i2, d2)) : IdConsistent d2 := by
  unfold deltaStepTail at h
  by_cases h1 : my0 = 0 ∧ (read_int extra i).1 ≠ 1
  · rw [if_pos h1] at h
    simp only [Option.some.injEq, Prod.mk.injEq] at h
    rw [← h.2]
    exact hd
  · rw [if_neg h1] at h
    dsimp only at h
    generalize (if my0 = 0 then (if d.isEmpty then 0 else maxKeys d) + 1
      else my0) = my at h
    by_cases h2 : (d.lookup my).isNone
    · rw [if_pos h2] at h
      by_cases h3 : (read_int extra i).1 = 1
      · rw [if_pos h3] at h
        refine idConsistent_applyEntry (idConsistent_dset hd ?_) h
        rfl
      · rw [if_neg h3] at h
        by_cases h4 : (read_int extra i).1 = 8
        · rw [if_pos h4] at h
          split at h
          · refine idConsistent_applyEntry
              (idConsistent_dset (idConsistent_ddel hd) ?_) h
            rfl
          · simp only [Option.some.injEq, Prod.mk.injEq] at h
            rw [← h.2]
            exact hd
        · rw [if_neg h4] at h
          simp only [Option.some.injEq, Prod.mk.injEq] at h
          rw [← h.2]
          exact hd
    · rw [if_neg h2] at h
      exact idConsistent_applyEntry hd h

theorem idConsistent_deltaStep {extra : List Char} {i : Nat} {d : PokeDict}
    (hd : IdConsistent d) {i2 : Nat} {d2 : PokeDict}
    (h : deltaStep extra i d = some (i2, d2)) : IdConsistent d2 := by
  simp only [deltaStep] at h
  split at h
  · simp at h
  · split at h
    · simp only [Option.some.injEq, Prod.mk.injEq] at h
      rw [← h.2]
      exact hd
    · exact idConsistent_deltaStepTail hd h

theorem idConsistent_deltaLoop (extra : List Char) :
    ∀ (fuel i : Nat) (d : PokeDict), IdConsistent d →
      IdConsistent (deltaLoop extra fuel i d) := by
  intro fuel
  induction fuel with
  | zero => intro i d hd; exact hd
  | succ fuel ih =>
    intro i d hd
    simp only [deltaLoop]
    split
    · exact hd
    · split
      · exact hd
      · rename_i i2d2 heq
        exact ih _ _ (idConsistent_deltaStep hd heq)

theorem idConsistent_deltaDictOf (extra : List Char) (R : List Pokemon) :
    IdConsistent (deltaDictOf extra R) := by
  simp only [deltaDictOf]
  split
  · exact idConsistent_buildDict R
  · exact idConsistent_deltaLoop extra _ _ _ (idConsistent_buildDict R)

/-! ### Claim C6, amended -/

/-- C6 amended: for every roster and every delta of length at least 4
(shorter deltas return the roster untouched, including any `myID = 0`
record in it), the returned list contains no record with `myID = 0`
and is sorted in non-decreasing order of position.  Ties between equal
positions keep the dict insertion order, not ascending myID. -/
theorem C6_no_zero_id_and_sorted (extra : List Char) (R : List Pokemon)
    (h4 : 4 ≤ extra.length) :
    (∀ p ∈ parse_delta_save extra R, 0 < p.myID)
      ∧ (parse_delta_save extra R).Pairwise
          (fun p q => p.position ≤ q.position) := by
  have hcons := idConsistent_deltaDictOf extra R
  unfold parse_delta_save
  rw [if_neg (by omega)]
  constructor
  · intro p hp
    simp only [sortByPosition, List.mem_mergeSort, List.mem_map,
      List.mem_filter] at hp
    obtain ⟨kv, ⟨hmem, hpos⟩, hval⟩ := hp
    have hid := hcons kv hmem
    rw [← hval, hid]
    simpa using hpos
  · simp only [sortByPosition]
    have hs := @List.sorted_mergeSort Pokemon
      (fun p q : Pokemon => decide (p.position ≤ q.position))
      (by intro a b c h1 h2; simp only [decide_eq_true_eq] at *; omega)
      (by intro a b; simp [Nat.le_total])
      (((deltaDictOf extra R).filter (fun kv => 0 < kv.1)).map Prod.snd)
    refine List.Pairwise.imp ?_ hs
    intro a b hab
    simpa using hab

/-- Witness for C6_no_zero_id_and_sorted at the empty four-letter delta
and a one-record roster. -/
theorem C6_no_zero_id_and_sorted_witness :
    (4 : Nat) ≤ emptyDelta.length
      ∧ ((∀ p ∈ parse_delta_save emptyDelta [pokeFive], 0 < p.myID)
          ∧ (parse_delta_save emptyDelta [pokeFive]).Pairwise
              (fun p q => p.position ≤ q.position)) :=
  ⟨by decide, C6_no_zero_id_and_sorted emptyDelta [pokeFive] (by decide)⟩

/-! ### Cursor-style reader lemmas -/

theorem read_int_at {extra p r : List Char} {i n : Nat}
    (hx : extra = p ++ encode_with_length n ++ r) (hi : i = p.length)
    (hn : n < 10 ^ 9) :
    read_int extra i = (n, i + (encode_with_length n).length) := by
  subst hx
  subst hi
  exact read_int_of_encode p r hn

theorem read_int2_at {extra p r : List Char} {i n : Nat}
    (hx : extra = p ++ encode_with_double_length n ++ r) (hi : i = p.length)
    (hn : (encode_int n).length < 10 ^ 9) :
    read_int2 extra i = (n, i + (encode_with_double_length n).length) := by
  subst hx
  subst hi
  exact read_int2_of_encode p r hn

theorem read_string_at {extra p r t : List Char} {i : Nat}
    (hx : extra = p ++ encode_str t ++ r) (hi : i = p.length)
    (ht : t.length ≤ 9) :
    read_string extra i = (t, i + (encode_str t).length) := by
  subst hx
  subst hi
  exact read_string_of_encode p r ht

/-! ### Encoding length facts -/

theorem encS_length_le {n : Nat} (h : n < 10 ^ 9) :
    (encode_with_length n).length ≤ 10 := by
  have h1 : (encode_int n).length ≤ 9 := (encode_length_le_iff (by norm_num)).mpr h
  have h2 : (encode_int (encode_int n).length).length ≤ 1 := by
    rw [encode_length_le_iff (by norm_num)]
    omega
  simp only [encode_with_length, List.length_append]
  omega

theorem encS_length_pos (n : Nat) : 2 ≤ (encode_with_length n).length := by
  have h1 := encode_length_pos n
  have h2 := encode_length_pos (encode_int n).length
  simp only [encode_with_length, List.length_append]
  omega

theorem encD_length_le {n : Nat} (h : n < 10 ^ 9) :
    (encode_with_double_length n).length ≤ 12 := by
  have h1 : (encode_int n).length ≤ 9 := (encode_length_le_iff (by norm_num)).mpr h
  have h2 : (encode_int (encode_int n).length).length ≤ 1 := by
    rw [encode_length_le_iff (by norm_num)]
    omega
  have h3 : (encode_int (encode_int (encode_int n).length).length).length ≤ 1 := by
    rw [encode_length_le_iff (by norm_num)]
    have := encode_length_pos n
    omega
  simp only [encode_with_double_length, List.length_append]
  omega

theorem encode_int_lt_of_lt {n : Nat} (h : n < 10 ^ 9) :
    (encode_int n).length < 10 ^ 9 := by
  have : (encode_int n).length ≤ 9 := (encode_length_le_iff (by norm_num)).mpr h
  omega

/-- `encode_with_length` of a one-digit number is exactly two letters. -/
theorem encS_single_digit {n : Nat} (_h0 : 1 ≤ n) (h9 : n < 10) :
    encode_with_length n = [digitToLetter 1, digitToLetter n] := by
  have hE : encode_int n = [digitToLetter n] := encode_single_digit h9
  have h1' : encode_int (1 : Nat) = [digitToLetter 1] :=
    encode_single_digit (by norm_num)
  rw [encode_with_length, hE]
  simp [h1']

/-! ### Loop helpers -/

theorem deltaLoop_stop (extra : List Char) (fuel i : Nat) (d : PokeDict)
    (h : extra.length ≤ i) : deltaLoop extra fuel i d = d := by
  cases fuel with
  | zero => rfl
  | succ fuel => simp only [deltaLoop]; rw [if_pos h]

/-! ### buildDict on well-formed rosters -/

theorem dset_append {d : PokeDict} {k : Nat} {v : Pokemon}
    (h : k ∉ d.map Prod.fst) : dset d k v = d ++ [(k, v)] := by
  unfold dset
  rw [lookup_of_not_mem_keys h]
  simp

theorem buildDict_eq_map {R : List Pokemon}
    (hnd : (R.map Pokemon.myID).Nodup) :
    buildDict R = R.map (fun p => (p.myID, p)) := by
  suffices h : ∀ (acc : PokeDict), (R.map Pokemon.myID).Nodup →
      (∀ k ∈ R.map Pokemon.myID, k ∉ acc.map Prod.fst) →
      R.foldl (fun d p => dset d p.myID p) acc
        = acc ++ R.map (fun p => (p.myID, p)) by
    simpa using h [] hnd (by simp)
  clear hnd
  induction R with
  | nil => intro acc _ _; simp
  | cons p t ih =>
    intro acc hnd hdisj
    simp only [List.map_cons, List.nodup_cons] at hnd
    simp only [List.foldl_cons]
    rw [dset_append (hdisj p.myID (by simp))]
    rw [ih (acc ++ [(p.myID, p)]) hnd.2 ?hdisj2]
    · simp
    case hdisj2 =>
      intro k hk
      simp only [List.map_append, List.mem_append, List.map_cons, List.map_nil,
        List.mem_singleton]
      push_neg
      refine ⟨hdisj k (by simp [hk]), ?_⟩
      intro heq
      subst heq
      exact hnd.1 hk

theorem filter_map_pos {R : List Pokemon} (hpos : ∀ p ∈ R, 0 < p.myID) :
    ((R.map (fun p => (p.myID, p))).filter (fun kv => 0 < kv.1)).map Prod.snd
      = R := by
  induction R with
  | nil => rfl
  | cons p t ih =>
    have hp : 0 < p.myID := hpos p (by simp)
    simp only [List.map_cons, List.filter_cons]
    rw [if_pos (by simpa using hp)]
    simp only [List.map_cons]
    rw [ih (fun q hq => hpos q (by simp [hq]))]

/-! ### Envelope execution on encoder-built deltas -/

theorem deltaDictOf_mkDelta (pc : Nat) (entries : List Char)
    (R : List Pokemon) (hpc : pc < 10 ^ 9)
    (hbody : (encode_with_length pc ++ entries).length < 10 ^ 9)
    (he : 1 ≤ entries.length) :
    ∃ P : List Char,
      mkDelta pc entries = P ++ entries
        ∧ P.length = 1
            + (encode_int (encode_with_length pc ++ entries).length).length
            + 1 + (encode_int pc).length
        ∧ 4 ≤ (mkDelta pc entries).length
        ∧ deltaDictOf (mkDelta pc entries) R
            = deltaLoop (mkDelta pc entries) (mkDelta pc entries).length
                P.length (buildDict R) := by
  have hCle : (encode_int pc).length ≤ 9 :=
    (encode_length_le_iff (by norm_num)).mpr hpc
  have hCpos : 1 ≤ (encode_int pc).length := encode_length_pos pc
  have hcl : encode_int (encode_int pc).length
      = [digitToLetter (encode_int pc).length] :=
    encode_single_digit (by omega)
  set body := encode_with_length pc ++ entries with hbodyDef
  have hbodylen : body.length = 1 + (encode_int pc).length + entries.length := by
    rw [hbodyDef]
    simp [encode_with_length, hcl]
    omega
  set H := encode_int body.length with hHdef
  have hHle : H.length ≤ 9 := by
    rw [hHdef, encode_length_le_iff (by norm_num)]
    exact hbody
  have hHpos : 1 ≤ H.length := encode_length_pos _
  have hhl : encode_int H.length = [digitToLetter H.length] :=
    encode_single_digit (by omega)
  have hexp : mkDelta pc entries = [digitToLetter H.length] ++ H
      ++ ([digitToLetter (encode_int pc).length] ++ encode_int pc ++ entries) := by
    simp only [mkDelta, ← hbodyDef, ← hHdef, hhl]
    rw [hbodyDef]
    simp [encode_with_length, hcl, List.append_assoc]
  have hPlen : ([digitToLetter H.length] ++ H
      ++ [digitToLetter (encode_int pc).length] ++ encode_int pc).length
      = 1 + H.length + 1 + (encode_int pc).length := by
    simp only [List.length_append, List.length_cons, List.length_nil]
    try omega
  refine ⟨[digitToLetter H.length] ++ H
      ++ [digitToLetter (encode_int pc).length] ++ encode_int pc, ?_, ?_, ?_, ?_⟩
  · rw [hexp]
    simp [List.append_assoc]
  · exact hPlen
  · rw [hexp]
    simp only [List.length_append, List.length_cons, List.length_nil]
    try omega
  · have hlen : (mkDelta pc entries).length
        = 1 + H.length + (1 + (encode_int pc).length + entries.length) := by
      rw [hexp]
      simp only [List.length_append, List.length_cons, List.length_nil]
      try omega
    have hs0 : slice (mkDelta pc entries) 0 1 = [digitToLetter H.length] := by
      rw [hexp]
      rw [show [digitToLetter H.length] ++ H
          ++ ([digitToLetter (encode_int pc).length] ++ encode_int pc ++ entries)
        = [] ++ [digitToLetter H.length]
          ++ (H ++ ([digitToLetter (encode_int pc).length]
              ++ encode_int pc ++ entries)) by simp]
      exact slice_at [] [digitToLetter H.length] _ 0 1 (by simp) (by simp)
    have hs1 : slice (mkDelta pc entries) (1 + H.length) 1
        = [digitToLetter (encode_int pc).length] := by
      rw [hexp]
      rw [show [digitToLetter H.length] ++ H
          ++ ([digitToLetter (encode_int pc).length] ++ encode_int pc ++ entries)
        = ([digitToLetter H.length] ++ H)
          ++ [digitToLetter (encode_int pc).length]
          ++ (encode_int pc ++ entries) by simp [List.append_assoc]]
      exact slice_at ([digitToLetter H.length] ++ H)
        [digitToLetter (encode_int pc).length] _ (1 + H.length) 1
        (by simp; omega) (by simp)
    simp only [deltaDictOf]
    rw [hs0, decode_single_digit (by omega)]
    rw [if_neg (by omega)]
    rw [hs1, decode_single_digit (by omega)]
    rw [hPlen]

theorem deltaStep_entry (P changes : List Char) (cc my : Nat) (d : PokeDict)
    (hcc1 : 1 ≤ cc) (hcc9 : cc < 10) (hmy : (encode_int my).length < 10 ^ 9)
    (hch : 1 ≤ changes.length) :
    deltaStep (P ++ mkEntry cc my changes) P.length d
      = deltaStepTail (P ++ mkEntry cc my changes) cc
          (P.length + 2 + (encode_with_double_length my).length) my d := by
  have hcc : encode_with_length cc = [digitToLetter 1, digitToLetter cc] :=
    encS_single_digit hcc1 hcc9
  have hshape : P ++ mkEntry cc my changes
      = P ++ [digitToLetter 1]
        ++ ([digitToLetter cc] ++ (encode_with_double_length my ++ changes)) := by
    simp [mkEntry, hcc, List.append_assoc]
  have hlen : (P ++ mkEntry cc my changes).length
      = P.length + 2 + (encode_with_double_length my).length + changes.length := by
    rw [hshape]
    simp only [List.length_append, List.length_cons, List.length_nil]
    omega
  have hs0 : slice (P ++ mkEntry cc my changes) P.length 1 = [digitToLetter 1] := by
    rw [hshape]
    exact slice_at P [digitToLetter 1] _ P.length 1 rfl (by simp)
  have hs1 : slice (P ++ mkEntry cc my changes) (P.length + 1) 1
      = [digitToLetter cc] := by
    rw [hshape]
    rw [show P ++ [digitToLetter 1]
        ++ ([digitToLetter cc] ++ (encode_with_double_length my ++ changes))
      = (P ++ [digitToLetter 1]) ++ [digitToLetter cc]
        ++ (encode_with_double_length my ++ changes) by simp [List.append_assoc]]
    exact slice_at (P ++ [digitToLetter 1]) [digitToLetter cc] _
      (P.length + 1) 1 (by simp) (by simp)
  have hrm : read_int2 (P ++ mkEntry cc my changes) (P.length + 2)
      = (my, P.length + 2 + (encode_with_double_length my).length) :=
    @read_int2_at (P ++ mkEntry cc my changes)
      (P ++ [digitToLetter 1] ++ [digitToLetter cc]) changes (P.length + 2) my
      (by rw [hshape]; simp [List.append_assoc]) (by simp) hmy
  simp only [deltaStep]
  rw [hs0, decode_single_digit (by norm_num)]
  rw [if_neg (by omega)]
  rw [hs1, decode_single_digit (by omega)]
  rw [if_neg (by omega)]
  rw [show P.length + 1 + 1 = P.length + 2 by omega, hrm]

/-! ### Single non-capture, non-posChange changes (for C7) -/

/-- The change types that are not needCaptured (1) and whose payload
the unknown-myID skip loop consumes with full type awareness (type 8
included: only as the FIRST change does it dispatch to the rekey
branch instead of the skip loop). -/
inductive SimpleChange where
  | level (n : Nat)
  | exp (n : Nat)
  | moves (a b c d : Nat)
  | moveSel (n : Nat)
  | evolve (n : Nat)
  | target (n : Nat)
  | posChange (n : Nat)
  | tag (s : List Char)

def SimpleChange.ctype : SimpleChange → Nat
  | .level _ => 2
  | .exp _ => 3
  | .moves _ _ _ _ => 4
  | .moveSel _ => 5
  | .evolve _ => 6
  | .target _ => 7
  | .posChange _ => 8
  | .tag _ => 9

def SimpleChange.payload : SimpleChange → List Char
  | .level n => encode_with_length n
  | .exp n => encode_with_double_length n
  | .moves a b c d => encode_with_length a ++ (encode_with_length b
      ++ (encode_with_length c ++ encode_with_length d))
  | .moveSel n => encode_with_length n
  | .evolve n => encode_with_length n
  | .target n => encode_with_length n
  | .posChange n => encode_with_length n
  | .tag s => encode_str s

/-- The wire form of a change: single-prefixed type, then payload. -/
def encChange (c : SimpleChange) : List Char :=
  encode_with_length c.ctype ++ c.payload

/-- The value bounds under which the encodings round-trip. -/
def SimpleChange.Bounded : SimpleChange → Prop
  | .level n => n < 10 ^ 9
  | .exp n => n < 10 ^ 9
  | .moves a b c d => a < 10 ^ 9 ∧ b < 10 ^ 9 ∧ c < 10 ^ 9 ∧ d < 10 ^ 9
  | .moveSel n => n < 10 ^ 9
  | .evolve n => n < 10 ^ 9
  | .target n => n < 10 ^ 9
  | .posChange n => n < 10 ^ 9
  | .tag s => s.length ≤ 9

theorem ctype_ge_two (c : SimpleChange) : 2 ≤ c.ctype := by
  cases c <;> simp [SimpleChange.ctype]

theorem ctype_le_nine (c : SimpleChange) : c.ctype ≤ 9 := by
  cases c <;> simp [SimpleChange.ctype]

theorem encChange_shape (c : SimpleChange) :
    encChange c = [digitToLetter 1, digitToLetter c.ctype] ++ c.payload := by
  unfold encChange
  rw [encS_single_digit (by have := ctype_ge_two c; omega)
    (by have := ctype_le_nine c; omega)]

theorem encChange_length (c : SimpleChange) :
    (encChange c).length = 2 + c.payload.length := by
  rw [encChange_shape]
  simp
  omega

/-- Reading the change type at the head of an encoded change,
whatever follows it. -/
theorem read_ctype (P r : List Char) (c : SimpleChange) :
    read_int (P ++ encChange c ++ r) P.length = (c.ctype, P.length + 2) := by
  have h := @read_int_at (P ++ encChange c ++ r) P (c.payload ++ r) P.length
    c.ctype (by rw [encChange]; simp [List.append_assoc]) rfl
    (by have := ctype_le_nine c; omega)
  rw [h, encS_single_digit (by have := ctype_ge_two c; omega)
    (by have := ctype_le_nine c; omega)]
  rfl

/-- The unknown-myID skip loop consumes exactly one encoded simple
change, whatever follows it. -/
theorem skipChangesU_encChange (P r : List Char) (c : SimpleChange)
    (hb : c.Bounded) :
    skipChangesU (P ++ encChange c ++ r) 1 P.length
      = P.length + (encChange c).length := by
  have hr0 := read_ctype P r c
  cases c with
  | level n =>
    simp only [SimpleChange.Bounded] at hb
    simp only [SimpleChange.ctype] at hr0
    have hlen : (encChange (SimpleChange.level n)).length
        = 2 + (encode_with_length n).length := by
      simp [encChange_length, SimpleChange.payload]
    have hr1 := @read_int_at (P ++ encChange (.level n) ++ r)
      (P ++ [digitToLetter 1, digitToLetter 2]) r (P.length + 2) n
      (by rw [encChange_shape]
          simp [SimpleChange.ctype, SimpleChange.payload, List.append_assoc])
      (by simp) hb
    simp only [skipChangesU, hr0, hr1]
    norm_num
    omega
  | exp n =>
    simp only [SimpleChange.Bounded] at hb
    simp only [SimpleChange.ctype] at hr0
    have hlen : (encChange (SimpleChange.exp n)).length
        = 2 + (encode_with_double_length n).length := by
      simp [encChange_length, SimpleChange.payload]
    have hr1 := @read_int2_at (P ++ encChange (.exp n) ++ r)
      (P ++ [digitToLetter 1, digitToLetter 3]) r (P.length + 2) n
      (by rw [encChange_shape]
          simp [SimpleChange.ctype, SimpleChange.payload, List.append_assoc])
      (by simp) (encode_int_lt_of_lt hb)
    simp only [skipChangesU, hr0, hr1]
    norm_num
    omega
  | moves a b c d =>
    obtain ⟨ha, hb2, hc, hd⟩ := hb
    simp only [SimpleChange.ctype] at hr0
    have hlen : (encChange (SimpleChange.moves a b c d)).length
        = 2 + ((encode_with_length a).length + ((encode_with_length b).length
          + ((encode_with_length c).length + (encode_with_length d).length))) := by
      simp [encChange_length, SimpleChange.payload]
    have hr1 := @read_int_at (P ++ encChange (.moves a b c d) ++ r)
      (P ++ [digitToLetter 1, digitToLetter 4])
      (encode_with_length b ++ (encode_with_length c
        ++ (encode_with_length d ++ r)))
      (P.length + 2) a
      (by rw [encChange_shape]
          simp [SimpleChange.ctype, SimpleChange.payload, List.append_assoc])
      (by simp) ha
    have hr2 := @read_int_at (P ++ encChange (.moves a b c d) ++ r)
      (P ++ [digitToLetter 1, digitToLetter 4] ++ encode_with_length a)
      (encode_with_length c ++ (encode_with_length d ++ r))
      (P.length + 2 + (encode_with_length a).length) b
      (by rw [encChange_shape]
          simp [SimpleChange.ctype, SimpleChange.payload, List.append_assoc])
      (by simp; omega) hb2
    have hr3 := @read_int_at (P ++ encChange (.moves a b c d) ++ r)
      (P ++ [digitToLetter 1, digitToLetter 4] ++ encode_with_length a
        ++ encode_with_length b)
      (encode_with_length d ++ r)
      (P.length + 2 + (encode_with_length a).length
        + (encode_with_length b).length) c
      (by rw [encChange_shape]
          simp [SimpleChange.ctype, SimpleChange.payload, List.append_assoc])
      (by simp; omega) hc
    have hr4 := @read_int_at (P ++ encChange (.moves a b c d) ++ r)
      (P ++ [digitToLetter 1, digitToLetter 4] ++ encode_with_length a
        ++ encode_with_length b ++ encode_with_length c)
      r
      (P.length + 2 + (encode_with_length a).length
        + (encode_with_length b).length + (encode_with_length c).length) d
      (by rw [encChange_shape]
          simp [SimpleChange.ctype, SimpleChange.payload, List.append_assoc])
      (by simp; omega) hd
    simp only [List.append_assoc] at hr2 hr3 hr4
    simp only [skipChangesU, skipFields, hr0, hr1]
    norm_num
    rw [hr2]
    dsimp only
    rw [hr3]
    dsimp only
    rw [hr4]
    dsimp only
    omega
  | moveSel n =>
    simp only [SimpleChange.Bounded] at hb
    simp only [SimpleChange.ctype] at hr0
    have hlen : (encChange (SimpleChange.moveSel n)).length
        = 2 + (encode_with_length n).length := by
      simp [encChange_length, SimpleChange.payload]
    have hr1 := @read_int_at (P ++ encChange (.moveSel n) ++ r)
      (P ++ [digitToLetter 1, digitToLetter 5]) r (P.length + 2) n
      (by rw [encChange_shape]
          simp [SimpleChange.ctype, SimpleChange.payload, List.append_assoc])
      (by simp) hb
    simp only [skipChangesU, hr0, hr1]
    norm_num
    omega
  | evolve n =>
    simp only [SimpleChange.Bounded] at hb
    simp only [SimpleChange.ctype] at hr0
    have hlen : (encChange (SimpleChange.evolve n)).length
        = 2 + (encode_with_length n).length := by
      simp [encChange_length, SimpleChange.payload]
    have hr1 := @read_int_at (P ++ encChange (.evolve n) ++ r)
      (P ++ [digitToLetter 1, digitToLetter 6]) r (P.length + 2) n
      (by rw [encChange_shape]
          simp [SimpleChange.ctype, SimpleChange.payload, List.append_assoc])
      (by simp) hb
    simp only [skipChangesU, hr0, hr1]
    norm_num
    omega
  | target n =>
    simp only [SimpleChange.Bounded] at hb
    simp only [SimpleChange.ctype] at hr0
    have hlen : (encChange (SimpleChange.target n)).length
        = 2 + (encode_with_length n).length := by
      simp [encChange_length, SimpleChange.payload]
    have hr1 := @read_int_at (P ++ encChange (.target n) ++ r)
      (P ++ [digitToLetter 1, digitToLetter 7]) r (P.length + 2) n
      (by rw [encChange_shape]
          simp [SimpleChange.ctype, SimpleChange.payload, List.append_assoc])
      (by simp) hb
    simp only [skipChangesU, hr0, hr1]
    norm_num
    omega
  | posChange n =>
    simp only [SimpleChange.Bounded] at hb
    simp only [SimpleChange.ctype] at hr0
    have hlen : (encChange (SimpleChange.posChange n)).length
        = 2 + (encode_with_length n).length := by
      simp [encChange_length, SimpleChange.payload]
    have hr1 := @read_int_at (P ++ encChange (.posChange n) ++ r)
      (P ++ [digitToLetter 1, digitToLetter 8]) r (P.length + 2) n
      (by rw [encChange_shape]
          simp [SimpleChange.ctype, SimpleChange.payload, List.append_assoc])
      (by simp) hb
    simp only [skipChangesU, hr0, hr1]
    norm_num
    omega
  | tag t =>
    simp only [SimpleChange.Bounded] at hb
    simp only [SimpleChange.ctype] at hr0
    have hlen : (encChange (SimpleChange.tag t)).length
        = 2 + (encode_str t).length := by
      simp [encChange_length, SimpleChange.payload]
    have hr1 := @read_string_at (P ++ encChange (.tag t) ++ r)
      (P ++ [digitToLetter 1, digitToLetter 9]) r t (P.length + 2)
      (by rw [encChange_shape]
          simp [SimpleChange.ctype, SimpleChange.payload, List.append_assoc])
      (by simp) hb
    simp only [skipChangesU, hr0, hr1]
    norm_num
    omega

theorem payload_length_le (c : SimpleChange) (hb : c.Bounded) :
    c.payload.length ≤ 40 := by
  cases c with
  | level n => exact le_trans (encS_length_le hb) (by norm_num)
  | exp n => exact le_trans (encD_length_le hb) (by norm_num)
  | moves a b c d =>
    obtain ⟨ha, hb2, hc, hd⟩ := hb
    have h1 := encS_length_le ha
    have h2 := encS_length_le hb2
    have h3 := encS_length_le hc
    have h4 := encS_length_le hd
    simp only [SimpleChange.payload, List.length_append]
    omega
  | moveSel n => exact le_trans (encS_length_le hb) (by norm_num)
  | evolve n => exact le_trans (encS_length_le hb) (by norm_num)
  | target n => exact le_trans (encS_length_le hb) (by norm_num)
  | posChange n => exact le_trans (encS_length_le hb) (by norm_num)
  | tag t =>
    simp only [SimpleChange.Bounded] at hb
    have h1 : (encode_int t.length).length ≤ 1 := by
      rw [encode_length_le_iff (by norm_num)]
      omega
    simp only [SimpleChange.payload, encode_str, List.length_append]
    omega

/-- The concatenated encodings of a list of changes. -/
def encChanges : List SimpleChange → List Char
  | [] => []
  | c :: t => encChange c ++ encChanges t

theorem encChanges_cons_pos (c : SimpleChange) (t : List SimpleChange) :
    1 ≤ (encChanges (c :: t)).length := by
  have := encChange_length c
  simp only [encChanges, List.length_append]
  omega

theorem encChanges_length_le :
    ∀ cs : List SimpleChange, (∀ c ∈ cs, SimpleChange.Bounded c) →
      (encChanges cs).length ≤ 42 * cs.length := by
  intro cs
  induction cs with
  | nil => intro _; simp [encChanges]
  | cons c t ih =>
    intro hb
    have h1 : (encChange c).length ≤ 42 := by
      rw [encChange_length]
      have := payload_length_le c (hb c (by simp))
      omega
    have h2 := ih (fun x hx => hb x (by simp [hx]))
    simp only [encChanges, List.length_append, List.length_cons]
    omega

/-- One iteration of the skip loop peeled off the fuel. -/
theorem skipChangesU_succ (E : List Char) (n i : Nat) :
    skipChangesU E (n + 1) i = skipChangesU E n (skipChangesU E 1 i) := by
  simp only [skipChangesU]

/-- The unknown-myID skip loop consumes a list of encoded simple
changes exactly, whatever follows them. -/
theorem skipChangesU_encChanges (r : List Char) :
    ∀ (cs : List SimpleChange) (P : List Char),
      (∀ c ∈ cs, SimpleChange.Bounded c) →
      skipChangesU (P ++ encChanges cs ++ r) cs.length P.length
        = P.length + (encChanges cs).length := by
  intro cs
  induction cs with
  | nil => intro P _; simp [skipChangesU, encChanges]
  | cons c t ih =>
    intro P hb
    have hassoc : P ++ encChanges (c :: t) ++ r
        = P ++ encChange c ++ (encChanges t ++ r) := by
      simp [encChanges, List.append_assoc]
    have hone : skipChangesU (P ++ encChange c ++ (encChanges t ++ r)) 1
          P.length
        = P.length + (encChange c).length :=
      skipChangesU_encChange P (encChanges t ++ r) c (hb c (by simp))
    have hre : P ++ encChange c ++ (encChanges t ++ r)
        = P ++ encChange c ++ encChanges t ++ r := by
      simp [List.append_assoc]
    have hcur : P.length + (encChange c).length
        = (P ++ encChange c).length := by
      simp
    rw [List.length_cons, hassoc, skipChangesU_succ, hone, hcur, hre,
      ih (P ++ encChange c) (fun x hx => hb x (by simp [hx]))]
    simp only [encChanges, List.length_append]
    omega

/-- `deltaStep` on an encoder-built entry for any change count below
10^9: the change-count and myID fields are consumed and the tail
dispatch is reached. -/
theorem deltaStep_entry_big (P changes : List Char) (cc my : Nat)
    (d : PokeDict) (hcc1 : 1 ≤ cc) (hcc9 : cc < 10 ^ 9)
    (hmy : (encode_int my).length < 10 ^ 9) (hch : 1 ≤ changes.length) :
    deltaStep (P ++ mkEntry cc my changes) P.length d
      = deltaStepTail (P ++ mkEntry cc my changes) cc
          (P.length + (encode_with_length cc).length
            + (encode_with_double_length my).length) my d := by
  have hCle : (encode_int cc).length ≤ 9 :=
    (encode_length_le_iff (by norm_num)).mpr hcc9
  have hCpos : 1 ≤ (encode_int cc).length := encode_length_pos cc
  have hcl : encode_int (encode_int cc).length
      = [digitToLetter (encode_int cc).length] :=
    encode_single_digit (by omega)
  have hSlen : (encode_with_length cc).length
      = 1 + (encode_int cc).length := by
    simp only [encode_with_length, hcl, List.length_append, List.length_cons,
      List.length_nil]
    try omega
  have hshape : P ++ mkEntry cc my changes
      = P ++ [digitToLetter (encode_int cc).length]
        ++ (encode_int cc ++ (encode_with_double_length my ++ changes)) := by
    simp [mkEntry, encode_with_length, hcl, List.append_assoc]
  have hlen : (P ++ mkEntry cc my changes).length
      = P.length + 1 + (encode_int cc).length
        + (encode_with_double_length my).length + changes.length := by
    rw [hshape]
    simp only [List.length_append, List.length_cons, List.length_nil]
    try omega
  have hs0 : slice (P ++ mkEntry cc my changes) P.length 1
      = [digitToLetter (encode_int cc).length] := by
    rw [hshape]
    exact slice_at P [digitToLetter (encode_int cc).length] _ P.length 1 rfl
      (by simp)
  have hs1 : slice (P ++ mkEntry cc my changes) (P.length + 1)
      (encode_int cc).length = encode_int cc := by
    rw [hshape]
    rw [show P ++ [digitToLetter (encode_int cc).length]
        ++ (encode_int cc ++ (encode_with_double_length my ++ changes))
      = (P ++ [digitToLetter (encode_int cc).length]) ++ encode_int cc
        ++ (encode_with_double_length my ++ changes) by
        simp [List.append_assoc]]
    exact slice_at (P ++ [digitToLetter (encode_int cc).length])
      (encode_int cc) _ (P.length + 1) (encode_int cc).length (by simp) rfl
  have hrm : read_int2 (P ++ mkEntry cc my changes)
      (P.length + 1 + (encode_int cc).length)
      = (my, P.length + 1 + (encode_int cc).length
          + (encode_with_double_length my).length) :=
    @read_int2_at (P ++ mkEntry cc my changes)
      (P ++ [digitToLetter (encode_int cc).length] ++ encode_int cc) changes
      (P.length + 1 + (encode_int cc).length) my
      (by rw [hshape]; simp [List.append_assoc])
      (by simp only [List.length_append, List.length_cons, List.length_nil]
          try omega)
      hmy
  simp only [deltaStep]
  rw [hs0, decode_single_digit (by omega)]
  rw [if_neg (by omega)]
  rw [hs1, decode_encode]
  rw [if_neg (by omega)]
  rw [show P.length + (encode_with_length cc).length
      + (encode_with_double_length my).length
    = P.length + 1 + (encode_int cc).length
      + (encode_with_double_length my).length by omega]
  rw [hrm]

/-- C7 amended: a well-formed delta with a single entry whose myID is
nonzero and unknown to the working dict is a no-op — the parser
returns the roster, merely re-sorted by position — whenever the
entry's first change type is in {2,...,7, 9} and every change type is
in {2,...,9}: the skip loop then consumes exactly the payloads.  Type
8 is harmless in any non-first position; as the FIRST change it
dispatches to the rekey branch instead of the skip loop, and a type-10
payload is not consumed by the skip loop at all and desynchronizes the
cursor (see the counterexample). -/
theorem C7_unknown_id_noop (R : List Pokemon) (pc my : Nat)
    (c0 : SimpleChange) (cs : List SimpleChange)
    (hpc : pc < 10 ^ 9) (hmy0 : my ≠ 0) (hmy9 : my < 10 ^ 9)
    (hnotin : my ∉ R.map Pokemon.myID)
    (hb : ∀ c ∈ c0 :: cs, SimpleChange.Bounded c)
    (h8 : c0.ctype ≠ 8) (hn : (c0 :: cs).length ≤ 10 ^ 7)
    (hpos : ∀ p ∈ R, 0 < p.myID) (hnd : (R.map Pokemon.myID).Nodup) :
    parse_delta_save
        (mkDelta pc (mkEntry (c0 :: cs).length my (encChanges (c0 :: cs)))) R
      = sortByPosition R := by
  have hmyenc : (encode_int my).length < 10 ^ 9 := encode_int_lt_of_lt hmy9
  have hcc1 : 1 ≤ (c0 :: cs).length := by simp
  have hcc9 : (c0 :: cs).length < 10 ^ 9 := lt_of_le_of_lt hn (by norm_num)
  have hchlen : 1 ≤ (encChanges (c0 :: cs)).length := encChanges_cons_pos c0 cs
  have henc : (encChanges (c0 :: cs)).length ≤ 42 * (c0 :: cs).length :=
    encChanges_length_le (c0 :: cs) hb
  have hbody : (encode_with_length pc
      ++ mkEntry (c0 :: cs).length my (encChanges (c0 :: cs))).length
      < 10 ^ 9 := by
    have h1 := encS_length_le hpc
    have h2 := encD_length_le hmy9
    have h3 := encS_length_le hcc9
    have h4 := hn
    have h5 := henc
    simp only [mkEntry, List.length_append]
    norm_num at h3 h4 h5 ⊢
    omega
  have he : 1 ≤ (mkEntry (c0 :: cs).length my
      (encChanges (c0 :: cs))).length := by
    have := encS_length_pos (c0 :: cs).length
    simp only [mkEntry, List.length_append]
    omega
  obtain ⟨P, hsplit, hPlen, h4len, hdict⟩ :=
    deltaDictOf_mkDelta pc
      (mkEntry (c0 :: cs).length my (encChanges (c0 :: cs))) R hpc hbody he
  have hPP : P ++ mkEntry (c0 :: cs).length my (encChanges (c0 :: cs))
      = P ++ encode_with_length (c0 :: cs).length
          ++ encode_with_double_length my ++ encChange c0 ++ encChanges cs := by
    simp [mkEntry, encChanges, List.append_assoc]
  have hi2 : P.length + (encode_with_length (c0 :: cs).length).length
      + (encode_with_double_length my).length
      = (P ++ encode_with_length (c0 :: cs).length
          ++ encode_with_double_length my).length := by
    simp only [List.length_append]
  have hpeek : read_int
      (P ++ mkEntry (c0 :: cs).length my (encChanges (c0 :: cs)))
      (P.length + (encode_with_length (c0 :: cs).length).length
        + (encode_with_double_length my).length)
      = (c0.ctype,
        P.length + (encode_with_length (c0 :: cs).length).length
          + (encode_with_double_length my).length + 2) := by
    have h := read_ctype
      (P ++ encode_with_length (c0 :: cs).length
        ++ encode_with_double_length my) (encChanges cs) c0
    rw [← hPP, ← hi2] at h
    exact h
  have hlookup : (buildDict R).lookup my = none :=
    lookup_of_not_mem_keys (fun hmem => hnotin (buildDict_keys_sub R my hmem))
  have hskip : skipChangesU
      (P ++ mkEntry (c0 :: cs).length my (encChanges (c0 :: cs)))
      (c0 :: cs).length
      (P.length + (encode_with_length (c0 :: cs).length).length
        + (encode_with_double_length my).length)
      = (P ++ mkEntry (c0 :: cs).length my (encChanges (c0 :: cs))).length := by
    have h := skipChangesU_encChanges [] (c0 :: cs)
      (P ++ encode_with_length (c0 :: cs).length
        ++ encode_with_double_length my) hb
    have hQ : P ++ encode_with_length (c0 :: cs).length
        ++ encode_with_double_length my ++ encChanges (c0 :: cs) ++ []
        = P ++ mkEntry (c0 :: cs).length my (encChanges (c0 :: cs)) := by
      simp [mkEntry, List.append_assoc]
    rw [hQ, ← hi2] at h
    rw [h]
    simp only [mkEntry, List.length_append]
    omega
  have hstep : deltaStep
      (P ++ mkEntry (c0 :: cs).length my (encChanges (c0 :: cs))) P.length
      (buildDict R)
      = some
          ((P ++ mkEntry (c0 :: cs).length my (encChanges (c0 :: cs))).length,
            buildDict R) := by
    rw [deltaStep_entry_big P (encChanges (c0 :: cs)) (c0 :: cs).length my
      (buildDict R) hcc1 hcc9 hmyenc hchlen]
    unfold deltaStepTail
    rw [if_neg (by simp [hmy0])]
    dsimp only
    rw [if_neg hmy0]
    rw [if_pos (by simp [hlookup])]
    rw [hpeek]
    dsimp only
    rw [if_neg (by have := ctype_ge_two c0; omega)]
    rw [if_neg h8]
    rw [hskip]
  unfold parse_delta_save
  rw [if_neg (by omega)]
  rw [hdict]
  rw [hsplit]
  have hlen2 : (P ++ mkEntry (c0 :: cs).length my
      (encChanges (c0 :: cs))).length
      = P.length
        + (mkEntry (c0 :: cs).length my (encChanges (c0 :: cs))).length := by
    simp
  obtain ⟨f, hf⟩ : ∃ f,
      (P ++ mkEntry (c0 :: cs).length my (encChanges (c0 :: cs))).length
        = f + 1 :=
    ⟨(P ++ mkEntry (c0 :: cs).length my (encChanges (c0 :: cs))).length - 1,
      by omega⟩
  rw [hf]
  simp only [deltaLoop]
  rw [if_neg (by omega)]
  rw [hstep]
  dsimp only
  rw [deltaLoop_stop _ _ _ _ (by omega)]
  rw [buildDict_eq_map hnd, filter_map_pos hpos]

/-- Witness for C7_unknown_id_noop: unknown myID 7 with two changes, a
needLevel change followed by a non-first posChange, against a
one-record roster. -/
theorem C7_unknown_id_noop_witness :
    parse_delta_save
        (mkDelta 1 (mkEntry
          [SimpleChange.level 50, SimpleChange.posChange 4].length 7
          (encChanges [SimpleChange.level 50, SimpleChange.posChange 4])))
        [pokeFive]
      = sortByPosition [pokeFive] :=
  C7_unknown_id_noop [pokeFive] 1 7 (SimpleChange.level 50)
    [SimpleChange.posChange 4] (by norm_num) (by norm_num) (by norm_num)
    (by decide)
    (by intro c hc
        rcases List.mem_cons.mp hc with h | hc2
        · subst h
          norm_num [SimpleChange.Bounded]
        · rcases List.mem_singleton.mp hc2 with rfl
          norm_num [SimpleChange.Bounded])
    (by simp [SimpleChange.ctype]) (by norm_num) (by decide) (by decide)

/-! ### Symbolic execution of a capture change -/

theorem applyChanges_capture (Q : List Char)
    (s e l m1 m2 m3 m4 ms tt pos er : Nat) (tag : List Char) (pk : Pokemon)
    (hs : s < 10 ^ 9) (he : e < 10 ^ 9) (hl : l < 10 ^ 9)
    (hm1 : m1 < 10 ^ 9) (hm2 : m2 < 10 ^ 9) (hm3 : m3 < 10 ^ 9)
    (hm4 : m4 < 10 ^ 9) (hms : ms < 10 ^ 9) (htt : tt < 10 ^ 9)
    (hpos2 : pos < 10 ^ 9) (her : er < 10 ^ 9) (htag : tag.length ≤ 9) :
    applyChanges (Q ++ mkCapture s e l m1 m2 m3 m4 ms tt pos er tag) 1
        Q.length pk
      = ((Q ++ mkCapture s e l m1 m2 m3 m4 ms tt pos er tag).length,
        { pk with
          species := s
          experience := e
          level := l
          move1 := m1
          move2 := m2
          move3 := m3
          move4 := m4
          moveSelected := ms
          targetType := tt
          position := pos
          shiny :=
            if [1, 2, 3, 4, 5, 6, 151, 153, 168, 182, 854].contains er then 1
            else if [180, 555, 855].contains er then 2
            else if er = s then 1
            else 0
          tag := tag }) := by
  have hlen1 : (encode_with_length 1).length = 2 := by decide
  have hr0 := @read_int_at (Q ++ mkCapture s e l m1 m2 m3 m4 ms tt pos er tag)
    Q
    (encode_with_length s ++ (encode_with_double_length e
      ++ (encode_with_length l ++ (encode_with_length m1
      ++ (encode_with_length m2 ++ (encode_with_length m3
      ++ (encode_with_length m4 ++ (encode_with_length ms
      ++ (encode_with_length tt ++ (encode_with_length pos
      ++ (encode_with_length er ++ encode_str tag)))))))))))
    Q.length 1
    (by simp [mkCapture, List.append_assoc]) rfl (by norm_num)
  rw [hlen1] at hr0
  have hr1 := @read_int_at (Q ++ mkCapture s e l m1 m2 m3 m4 ms tt pos er tag)
    (Q ++ encode_with_length 1)
    (encode_with_double_length e ++ (encode_with_length l ++ (encode_with_length m1 ++ (encode_with_length m2 ++ (encode_with_length m3 ++ (encode_with_length m4 ++ (encode_with_length ms ++ (encode_with_length tt ++ (encode_with_length pos ++ (encode_with_length er ++ (encode_str tag)))))))))))
    (Q.length + 2) s
    (by simp [mkCapture, List.append_assoc]) (by simp [hlen1]; try omega) hs
  have hr2 := @read_int2_at (Q ++ mkCapture s e l m1 m2 m3 m4 ms tt pos er tag)
    (Q ++ encode_with_length 1 ++ encode_with_length s)
    (encode_with_length l ++ (encode_with_length m1 ++ (encode_with_length m2 ++ (encode_with_length m3 ++ (encode_with_length m4 ++ (encode_with_length ms ++ (encode_with_length tt ++ (encode_with_length pos ++ (encode_with_length er ++ (encode_str tag))))))))))
    (Q.length + 2 + (encode_with_length s).length) e
    (by simp [mkCapture, List.append_assoc]) (by simp [hlen1]; try omega) (encode_int_lt_of_lt he)
  have hr3 := @read_int_at (Q ++ mkCapture s e l m1 m2 m3 m4 ms tt pos er tag)
    (Q ++ encode_with_length 1 ++ encode_with_length s ++ encode_with_double_length e)
    (encode_with_length m1 ++ (encode_with_length m2 ++ (encode_with_length m3 ++ (encode_with_length m4 ++ (encode_with_length ms ++ (encode_with_length tt ++ (encode_with_length pos ++ (encode_with_length er ++ (encode_str tag)))))))))
    (Q.length + 2 + (encode_with_length s).length + (encode_with_double_length e).length) l
    (by simp [mkCapture, List.append_assoc]) (by simp [hlen1]; try omega) hl
  have hr4 := @read_int_at (Q ++ mkCapture s e l m1 m2 m3 m4 ms tt pos er tag)
    (Q ++ encode_with_length 1 ++ encode_with_length s ++ encode_with_double_length e ++ encode_with_length l)
    (encode_with_length m2 ++ (encode_with_length m3 ++ (encode_with_length m4 ++ (encode_with_length ms ++ (encode_with_length tt ++ (encode_with_length pos ++ (encode_with_length er ++ (encode_str tag))))))))
    (Q.length + 2 + (encode_with_length s).length + (encode_with_double_length e).length + (encode_with_length l).length) m1
    (by simp [mkCapture, List.append_assoc]) (by simp [hlen1]; try omega) hm1
  have hr5 := @read_int_at (Q ++ mkCapture s e l m1 m2 m3 m4 ms tt pos er tag)
    (Q ++ encode_with_length 1 ++ encode_with_length s ++ encode_with_double_length e ++ encode_with_length l ++ encode_with_length m1)
    (encode_with_length m3 ++ (encode_with_length m4 ++ (encode_with_length ms ++ (encode_with_length tt ++ (encode_with_length pos ++ (encode_with_length er ++ (encode_str tag)))))))
    (Q.length + 2 + (encode_with_length s).length + (encode_with_double_length e).length + (encode_with_length l).length + (encode_with_length m1).length) m2
    (by simp [mkCapture, List.append_assoc]) (by simp [hlen1]; try omega) hm2
  have hr6 := @read_int_at (Q ++ mkCapture s e l m1 m2 m3 m4 ms tt pos er tag)
    (Q ++ encode_with_length 1 ++ encode_with_length s ++ encode_with_double_length e ++ encode_with_length l ++ encode_with_length m1 ++ encode_with_length m2)
    (encode_with_length m4 ++ (encode_with_length ms ++ (encode_with_length tt ++ (encode_with_length pos ++ (encode_with_length er ++ (encode_str tag))))))
    (Q.length + 2 + (encode_with_length s).length + (encode_with_double_length e).length + (encode_with_length l).length + (encode_with_length m1).length + (encode_with_length m2).length) m3
    (by simp [mkCapture, List.append_assoc]) (by simp [hlen1]; try omega) hm3
  have hr7 := @read_int_at (Q ++ mkCapture s e l m1 m2 m3 m4 ms tt pos er tag)
    (Q ++ encode_with_length 1 ++ encode_with_length s ++ encode_with_double_length e ++ encode_with_length l ++ encode_with_length m1 ++ encode_with_length m2 ++ encode_with_length m3)
    (encode_with_length ms ++ (encode_with_length tt ++ (encode_with_length pos ++ (encode_with_length er ++ (encode_str tag)))))
    (Q.length + 2 + (encode_with_length s).length + (encode_with_double_length e).length + (encode_with_length l).length + (encode_with_length m1).length + (encode_with_length m2).length + (encode_with_length m3).length) m4
    (by simp [mkCapture, List.append_assoc]) (by simp [hlen1]; try omega) hm4
  have hr8 := @read_int_at (Q ++ mkCapture s e l m1 m2 m3 m4 ms tt pos er tag)
    (Q ++ encode_with_length 1 ++ encode_with_length s ++ encode_with_double_length e ++ encode_with_length l ++ encode_with_length m1 ++ encode_with_length m2 ++ encode_with_length m3 ++ encode_with_length m4)
    (encode_with_length tt ++ (encode_with_length pos ++ (encode_with_length er ++ (encode_str tag))))
    (Q.length + 2 + (encode_with_length s).length + (encode_with_double_length e).length + (encode_with_length l).length + (encode_with_length m1).length + (encode_with_length m2).length + (encode_with_length m3).length + (encode_with_length m4).length) ms
    (by simp [mkCapture, List.append_assoc]) (by simp [hlen1]; try omega) hms
  have hr9 := @read_int_at (Q ++ mkCapture s e l m1 m2 m3 m4 ms tt pos er tag)
    (Q ++ encode_with_length 1 ++ encode_with_length s ++ encode_with_double_length e ++ encode_with_length l ++ encode_with_length m1 ++ encode_with_length m2 ++ encode_with_length m3 ++ encode_with_length m4 ++ encode_with_length ms)
    (encode_with_length pos ++ (encode_with_length er ++ (encode_str tag)))
    (Q.length + 2 + (encode_with_length s).length + (encode_with_double_length e).length + (encode_with_length l).length + (encode_with_length m1).length + (encode_with_length m2).length + (encode_with_length m3).length + (encode_with_length m4).length + (encode_with_length ms).length) tt
    (by simp [mkCapture, List.append_assoc]) (by simp [hlen1]; try omega) htt
  have hr10 := @read_int_at (Q ++ mkCapture s e l m1 m2 m3 m4 ms tt pos er tag)
    (Q ++ encode_with_length 1 ++ encode_with_length s ++ encode_with_double_length e ++ encode_with_length l ++ encode_with_length m1 ++ encode_with_length m2 ++ encode_with_length m3 ++ encode_with_length m4 ++ encode_with_length ms ++ encode_with_length tt)
    (encode_with_length er ++ (encode_str tag))
    (Q.length + 2 + (encode_with_length s).length + (encode_with_double_length e).length + (encode_with_length l).length + (encode_with_length m1).length + (encode_with_length m2).length + (encode_with_length m3).length + (encode_with_length m4).length + (encode_with_length ms).length + (encode_with_length tt).length) pos
    (by simp [mkCapture, List.append_assoc]) (by simp [hlen1]; try omega) hpos2
  have hr11 := @read_int_at (Q ++ mkCapture s e l m1 m2 m3 m4 ms tt pos er tag)
    (Q ++ encode_with_length 1 ++ encode_with_length s ++ encode_with_double_length e ++ encode_with_length l ++ encode_with_length m1 ++ encode_with_length m2 ++ encode_with_length m3 ++ encode_with_length m4 ++ encode_with_length ms ++ encode_with_length tt ++ encode_with_length pos)
    (encode_str tag)
    (Q.length + 2 + (encode_with_length s).length + (encode_with_double_length e).length + (encode_with_length l).length + (encode_with_length m1).length + (encode_with_length m2).length + (encode_with_length m3).length + (encode_with_length m4).length + (encode_with_length ms).length + (encode_with_length tt).length + (encode_with_length pos).length) er
    (by simp [mkCapture, List.append_assoc]) (by simp [hlen1]; try omega) her
  have hr12 := @read_string_at (Q ++ mkCapture s e l m1 m2 m3 m4 ms tt pos er tag)
    (Q ++ encode_with_length 1 ++ encode_with_length s ++ encode_with_double_length e ++ encode_with_length l ++ encode_with_length m1 ++ encode_with_length m2 ++ encode_with_length m3 ++ encode_with_length m4 ++ encode_with_length ms ++ encode_with_length tt ++ encode_with_length pos ++ encode_with_length er)
    ([]) tag
    (Q.length + 2 + (encode_with_length s).length + (encode_with_double_length e).length + (encode_with_length l).length + (encode_with_length m1).length + (encode_with_length m2).length + (encode_with_length m3).length + (encode_with_length m4).length + (encode_with_length ms).length + (encode_with_length tt).length + (encode_with_length pos).length + (encode_with_length er).length)
    (by simp [mkCapture, List.append_assoc]) (by simp [hlen1]; try omega) htag
  have hend : Q.length + 2 + (encode_with_length s).length + (encode_with_double_length e).length + (encode_with_length l).length + (encode_with_length m1).length + (encode_with_length m2).length + (encode_with_length m3).length + (encode_with_length m4).length + (encode_with_length ms).length + (encode_with_length tt).length + (encode_with_length pos).length + (encode_with_length er).length + (encode_str tag).length
      = (Q ++ mkCapture s e l m1 m2 m3 m4 ms tt pos er tag).length := by
    simp [mkCapture, hlen1]
    try omega
  rw [applyChanges]
  rw [if_neg (by simp [mkCapture, hlen1]; try omega)]
  rw [hr0]
  dsimp only
  unfold applyOneChange
  rw [if_pos rfl]
  rw [hr1]
  dsimp only
  rw [hr2]
  dsimp only
  rw [hr3]
  dsimp only
  rw [hr4]
  dsimp only
  rw [hr5]
  dsimp only
  rw [hr6]
  dsimp only
  rw [hr7]
  dsimp only
  rw [hr8]
  dsimp only
  rw [hr9]
  dsimp only
  rw [hr10]
  dsimp only
  rw [hr11]
  dsimp only
  rw [hr12]
  dsimp only
  rw [applyChanges]
  rw [hend]

theorem maxKeys_ite (d : PokeDict) :
    (if d.isEmpty then 0 else maxKeys d) = maxKeys d := by
  cases d <;> simp [maxKeys]

theorem default_myID_update (M : Nat) :
    { default_pokemon M with myID := M } = default_pokemon M := rfl

/-- Full symbolic run of a single-capture delta: the parser allocates
`maxKeys (buildDict R) + 1` as the new myID, creates a default record,
applies the capture payload, and returns the filtered, position-sorted
dict. -/
theorem parse_capture_delta (R : List Pokemon)
    (pc s e l m1 m2 m3 m4 ms tt pos er : Nat) (tag : List Char)
    (hpc : pc < 10 ^ 9) (hs : s < 10 ^ 9) (he : e < 10 ^ 9) (hl : l < 10 ^ 9)
    (hm1 : m1 < 10 ^ 9) (hm2 : m2 < 10 ^ 9) (hm3 : m3 < 10 ^ 9)
    (hm4 : m4 < 10 ^ 9) (hms : ms < 10 ^ 9) (htt : tt < 10 ^ 9)
    (hpos2 : pos < 10 ^ 9) (her : er < 10 ^ 9) (htag : tag.length ≤ 9) :
    parse_delta_save
        (mkDelta pc (mkEntry 1 0 (mkCapture s e l m1 m2 m3 m4 ms tt pos er tag)))
        R
      = sortByPosition
          (((dset
              (dset (buildDict R) (maxKeys (buildDict R) + 1)
                (default_pokemon (maxKeys (buildDict R) + 1)))
              (maxKeys (buildDict R) + 1)
              { default_pokemon (maxKeys (buildDict R) + 1) with
                species := s
                experience := e
                level := l
                move1 := m1
                move2 := m2
                move3 := m3
                move4 := m4
                moveSelected := ms
                targetType := tt
                position := pos
                shiny :=
                  if [1, 2, 3, 4, 5, 6, 151, 153, 168, 182, 854].contains er
                  then 1
                  else if [180, 555, 855].contains er then 2
                  else if er = s then 1
                  else 0
                tag := tag }).filter (fun kv => 0 < kv.1)).map Prod.snd) := by
  have hcaplen : (mkCapture s e l m1 m2 m3 m4 ms tt pos er tag).length ≤ 132 := by
    have b1 := encS_length_le (show (1 : Nat) < 10 ^ 9 by norm_num)
    have b2 := encS_length_le hs
    have b3 := encD_length_le he
    have b4 := encS_length_le hl
    have b5 := encS_length_le hm1
    have b6 := encS_length_le hm2
    have b7 := encS_length_le hm3
    have b8 := encS_length_le hm4
    have b9 := encS_length_le hms
    have b10 := encS_length_le htt
    have b11 := encS_length_le hpos2
    have b12 := encS_length_le her
    have b13 : (encode_int tag.length).length ≤ 1 := by
      rw [encode_length_le_iff (by norm_num)]
      omega
    simp only [mkCapture, encode_str, List.length_append]
    omega
  have hcap1 : 1 ≤ (mkCapture s e l m1 m2 m3 m4 ms tt pos er tag).length := by
    have := encS_length_pos 1
    simp only [mkCapture, List.length_append]
    omega
  have hbody : (encode_with_length pc
      ++ mkEntry 1 0 (mkCapture s e l m1 m2 m3 m4 ms tt pos er tag)).length
      < 10 ^ 9 := by
    have h1 := encS_length_le hpc
    have h2 := encD_length_le (show (0 : Nat) < 10 ^ 9 by norm_num)
    have h4 := encS_length_le (show (1 : Nat) < 10 ^ 9 by norm_num)
    simp only [mkEntry, List.length_append]
    omega
  have he1 : 1 ≤ (mkEntry 1 0
      (mkCapture s e l m1 m2 m3 m4 ms tt pos er tag)).length := by
    have := encS_length_pos 1
    simp only [mkEntry, List.length_append]
    omega
  obtain ⟨P, hsplit, hPlen, h4len, hdict⟩ :=
    deltaDictOf_mkDelta pc
      (mkEntry 1 0 (mkCapture s e l m1 m2 m3 m4 ms tt pos er tag)) R hpc hbody he1
  have hQ : P ++ mkEntry 1 0 (mkCapture s e l m1 m2 m3 m4 ms tt pos er tag)
      = (P ++ encode_with_length 1 ++ encode_with_double_length 0)
        ++ mkCapture s e l m1 m2 m3 m4 ms tt pos er tag := by
    simp [mkEntry, List.append_assoc]
  have hi2Q : P.length + 2 + (encode_with_double_length 0).length
      = (P ++ encode_with_length 1 ++ encode_with_double_length 0).length := by
    rw [encS_single_digit (le_refl 1) (by norm_num)]
    simp
    omega
  have hpeek : read_int
      (P ++ mkEntry 1 0 (mkCapture s e l m1 m2 m3 m4 ms tt pos er tag))
      (P.length + 2 + (encode_with_double_length 0).length)
      = (1, P.length + 2 + (encode_with_double_length 0).length + 2) := by
    have h := @read_int_at
      (P ++ mkEntry 1 0 (mkCapture s e l m1 m2 m3 m4 ms tt pos er tag))
      (P ++ encode_with_length 1 ++ encode_with_double_length 0)
      (encode_with_length s ++ (encode_with_double_length e
        ++ (encode_with_length l ++ (encode_with_length m1
        ++ (encode_with_length m2 ++ (encode_with_length m3
        ++ (encode_with_length m4 ++ (encode_with_length ms
        ++ (encode_with_length tt ++ (encode_with_length pos
        ++ (encode_with_length er ++ encode_str tag)))))))))))
      (P.length + 2 + (encode_with_double_length 0).length) 1
      (by rw [hQ]; simp [mkCapture, List.append_assoc]) hi2Q (by norm_num)
    rw [h]
    rw [encS_single_digit (le_refl 1) (by norm_num)]
    rfl
  have hcapapply := applyChanges_capture
    (P ++ encode_with_length 1 ++ encode_with_double_length 0)
    s e l m1 m2 m3 m4 ms tt pos er tag
    (default_pokemon (maxKeys (buildDict R) + 1))
    hs he hl hm1 hm2 hm3 hm4 hms htt hpos2 her htag
  rw [← hQ, ← hi2Q] at hcapapply
  have hstep : deltaStep
      (P ++ mkEntry 1 0 (mkCapture s e l m1 m2 m3 m4 ms tt pos er tag))
      P.length (buildDict R)
      = some ((P ++ mkEntry 1 0
            (mkCapture s e l m1 m2 m3 m4 ms tt pos er tag)).length,
          dset
            (dset (buildDict R) (maxKeys (buildDict R) + 1)
              (default_pokemon (maxKeys (buildDict R) + 1)))
            (maxKeys (buildDict R) + 1)
            { default_pokemon (maxKeys (buildDict R) + 1) with
              species := s
              experience := e
              level := l
              move1 := m1
              move2 := m2
              move3 := m3
              move4 := m4
              moveSelected := ms
              targetType := tt
              position := pos
              shiny :=
                if [1, 2, 3, 4, 5, 6, 151, 153, 168, 182, 854].contains er
                then 1
                else if [180, 555, 855].contains er then 2
                else if er = s then 1
                else 0
              tag := tag }) := by
    rw [deltaStep_entry P (mkCapture s e l m1 m2 m3 m4 ms tt pos er tag) 1 0
      (buildDict R) (le_refl 1) (by norm_num)
      (encode_int_lt_of_lt (by norm_num)) hcap1]
    unfold deltaStepTail
    rw [if_neg (by simp [hpeek])]
    dsimp only
    rw [if_pos rfl, maxKeys_ite]
    rw [if_pos (by simp [lookup_maxKeys_succ])]
    rw [hpeek]
    dsimp only
    rw [if_pos rfl]
    unfold applyEntry
    rw [dset_lookup_self]
    dsimp only
    simp only [Option.getD_some]
    rw [default_myID_update]
    rw [hcapapply]
  unfold parse_delta_save
  rw [if_neg (by omega)]
  rw [hdict]
  rw [hsplit]
  obtain ⟨f, hf⟩ : ∃ f, (P ++ mkEntry 1 0
      (mkCapture s e l m1 m2 m3 m4 ms tt pos er tag)).length = f + 1 :=
    ⟨(P ++ mkEntry 1 0
      (mkCapture s e l m1 m2 m3 m4 ms tt pos er tag)).length - 1,
      by simp; omega⟩
  rw [hf]
  simp only [deltaLoop]
  rw [if_neg (by simp only [List.length_append]; omega)]
  rw [hstep]
  dsimp only
  rw [deltaLoop_stop _ _ _ _ (by omega)]

/-! ### Claim C5 -/

/-- C5: a well-formed single-entry delta with `myID = 0` whose first
change is needCaptured allocates the new record the myID
`max(existing myIDs in the working set) + 1` (the working set being the
copied dict of the input roster), which is 1 when the roster is empty. -/
theorem C5_capture_allocates_max_succ (R : List Pokemon)
    (pc s e l m1 m2 m3 m4 ms tt pos er : Nat) (tag : List Char)
    (hpc : pc < 10 ^ 9) (hs : s < 10 ^ 9) (he : e < 10 ^ 9) (hl : l < 10 ^ 9)
    (hm1 : m1 < 10 ^ 9) (hm2 : m2 < 10 ^ 9) (hm3 : m3 < 10 ^ 9)
    (hm4 : m4 < 10 ^ 9) (hms : ms < 10 ^ 9) (htt : tt < 10 ^ 9)
    (hpos2 : pos < 10 ^ 9) (her : er < 10 ^ 9) (htag : tag.length ≤ 9) :
    (∃ q ∈ parse_delta_save
        (mkDelta pc (mkEntry 1 0 (mkCapture s e l m1 m2 m3 m4 ms tt pos er tag)))
        R,
      q.myID = maxKeys (buildDict R) + 1 ∧ q.species = s ∧ q.level = l
        ∧ q.position = pos ∧ q.tag = tag)
      ∧ (R = [] → maxKeys (buildDict R) + 1 = 1) := by
  rw [parse_capture_delta R pc s e l m1 m2 m3 m4 ms tt pos er tag hpc hs he hl
    hm1 hm2 hm3 hm4 hms htt hpos2 her htag]
  constructor
  · refine ⟨_, List.mem_mergeSort.mpr (List.mem_map_of_mem Prod.snd
      (List.mem_filter.mpr
        ⟨mem_of_lookup_eq_some (dset_lookup_self _ _ _), by simp⟩)),
      rfl, rfl, rfl, rfl, rfl⟩
  · intro h
    subst h
    rfl

/-- Witness for C5: capture of species 1 (level 5, position 1, empty
tag) against the empty roster; the allocated myID is 1. -/
theorem C5_capture_allocates_max_succ_witness :
    (∃ q ∈ parse_delta_save
        (mkDelta 1 (mkEntry 1 0 (mkCapture 1 0 5 33 0 0 0 1 1 1 0 [])))
        [],
      q.myID = maxKeys (buildDict []) + 1 ∧ q.species = 1 ∧ q.level = 5
        ∧ q.position = 1 ∧ q.tag = [])
      ∧ (([] : List Pokemon) = [] → maxKeys (buildDict []) + 1 = 1) :=
  C5_capture_allocates_max_succ [] 1 1 0 5 33 0 0 0 1 1 1 0 []
    (by norm_num) (by norm_num) (by norm_num) (by norm_num) (by norm_num)
    (by norm_num) (by norm_num) (by norm_num) (by norm_num) (by norm_num)
    (by norm_num) (by norm_num) (by norm_num)

/-! ### Claim C8 -/

/-- C8: the rarity stored on a newly captured record follows the rules,
applied in order: `extraRarity` in the eleven-element shiny list gives
1; else in the shadow list {180, 555, 855} gives 2; else equal to the
(just-written) species gives 1; else 0. -/
theorem C8_capture_rarity (R : List Pokemon)
    (pc s e l m1 m2 m3 m4 ms tt pos er : Nat) (tag : List Char)
    (hpc : pc < 10 ^ 9) (hs : s < 10 ^ 9) (he : e < 10 ^ 9) (hl : l < 10 ^ 9)
    (hm1 : m1 < 10 ^ 9) (hm2 : m2 < 10 ^ 9) (hm3 : m3 < 10 ^ 9)
    (hm4 : m4 < 10 ^ 9) (hms : ms < 10 ^ 9) (htt : tt < 10 ^ 9)
    (hpos2 : pos < 10 ^ 9) (her : er < 10 ^ 9) (htag : tag.length ≤ 9) :
    ∃ q ∈ parse_delta_save
        (mkDelta pc (mkEntry 1 0 (mkCapture s e l m1 m2 m3 m4 ms tt pos er tag)))
        R,
      q.myID = maxKeys (buildDict R) + 1 ∧ q.species = s
        ∧ q.shiny = (if er ∈ ([1, 2, 3, 4, 5, 6, 151, 153, 168, 182, 854] : List Nat)
            then 1
            else if er ∈ ([180, 555, 855] : List Nat) then 2
            else if er = s then 1
            else 0) := by
  rw [parse_capture_delta R pc s e l m1 m2 m3 m4 ms tt pos er tag hpc hs he hl
    hm1 hm2 hm3 hm4 hms htt hpos2 her htag]
  refine ⟨_, List.mem_mergeSort.mpr (List.mem_map_of_mem Prod.snd
      (List.mem_filter.mpr
        ⟨mem_of_lookup_eq_some (dset_lookup_self _ _ _), by simp⟩)),
      rfl, rfl, ?_⟩
  show (if [1, 2, 3, 4, 5, 6, 151, 153, 168, 182, 854].contains er then (1 : Nat)
      else if [180, 555, 855].contains er then 2
      else if er = s then 1
      else 0)
    = _
  simp only [List.contains_eq_any_beq, List.any_eq_true, beq_iff_eq]
  by_cases h1 : er ∈ ([1, 2, 3, 4, 5, 6, 151, 153, 168, 182, 854] : List Nat)
  · rw [if_pos (by exact ⟨er, h1, rfl⟩), if_pos h1]
  · rw [if_neg (by rintro ⟨x, hx, rfl⟩; exact h1 hx),
      if_neg h1]
    by_cases h2 : er ∈ ([180, 555, 855] : List Nat)
    · rw [if_pos (by exact ⟨er, h2, rfl⟩), if_pos h2]
    · rw [if_neg (by rintro ⟨x, hx, rfl⟩; exact h2 hx), if_neg h2]

/-- Witness for C8: a shadow capture with `extraRarity = 180` stores
rarity 2. -/
theorem C8_capture_rarity_witness :
    ∃ q ∈ parse_delta_save
        (mkDelta 1 (mkEntry 1 0 (mkCapture 1 0 5 33 0 0 0 1 1 1 180 [])))
        [],
      q.myID = maxKeys (buildDict []) + 1 ∧ q.species = 1
        ∧ q.shiny = (if (180 : Nat) ∈ ([1, 2, 3, 4, 5, 6, 151, 153, 168, 182, 854] : List Nat)
            then 1
            else if (180 : Nat) ∈ ([180, 555, 855] : List Nat) then 2
            else if (180 : Nat) = 1 then 1
            else 0) :=
  C8_capture_rarity [] 1 1 0 5 33 0 0 0 1 1 1 180 []
    (by norm_num) (by norm_num) (by norm_num) (by norm_num) (by norm_num)
    (by norm_num) (by norm_num) (by norm_num) (by norm_num) (by norm_num)
    (by norm_num) (by norm_num) (by norm_num)

/-! ### Heap-passing embedding of the parser, for the frame claim

Python records are mutable objects.  To reason about which objects
`parse_delta_save` writes to, the same source lines are embedded once
more with the object heap explicit: records live at indices of a
`Heap`, the dict maps myID to an address, `p.copy()` allocates a fresh
address, and every field assignment is a `List.set` at an address.
The purely cursor-driven helpers (`read_*`, the skip loops,
`applyOneChange`'s reads) are shared with the pure embedding. -/

abbrev Heap := List Pokemon

abbrev AddrDict := List (Nat × Nat)

/-- `del pokemon_by_id[k]`. -/
def ddelA (d : AddrDict) (k : Nat) : AddrDict := d.filter (fun kv => kv.1 ≠ k)

/-- `max(d.keys())` (0 on empty, guarded by the caller). -/
def maxKeysA (d : AddrDict) : Nat := (d.map Prod.fst).foldl Nat.max 0

/-- The change loop (lines 377-471) on the record at address `a`:
each applied change writes the updated record back in place. -/
def applyChangesH (extra : List Char) : Nat → Nat → Nat → Heap → Nat × Heap
  | 0, i, _, h => (i, h)
  | n + 1, i, a, h =>
    if extra.length ≤ i then (i, h)
    else
      let r := read_int extra i
      let res := applyOneChange extra r.1 r.2 (h.getD a (default_pokemon 0))
      applyChangesH extra n res.1 a (h.set a res.2)

/-- Lines 373-374 and the change loop: `poke = pokemon_by_id[my_id]`
(present by construction), write `poke["myID"] = my_id` in place, then
apply the changes. -/
def applyEntryH (extra : List Char) (cc my i : Nat) (h : Heap) (d : AddrDict) :
    Option (Nat × Heap × AddrDict) :=
  let a := (d.lookup my).getD h.length
  let h := h.set a { h.getD a (default_pokemon 0) with myID := my }
  let res := applyChangesH extra cc i a h
  some (res.1, res.2, d)

/-- Lines 287-471 with the heap explicit; mirrors `deltaStepTail`. -/
def deltaStepTailH (extra : List Char) (cc i my0 : Nat) (h : Heap)
    (d : AddrDict) : Option (Nat × Heap × AddrDict) :=
  if my0 = 0 ∧ (read_int extra i).1 ≠ 1 then
    some (skipChangesZ extra cc i, h, d)
  else
    let my := if my0 = 0 then (if d.isEmpty then 0 else maxKeysA d) + 1 else my0
    if (d.lookup my).isNone then
      if (read_int extra i).1 = 1 then
        applyEntryH extra cc my i (h ++ [default_pokemon my])
          (dinsertKV d my h.length)
      else if (read_int extra i).1 = 8 then
        let ti := (read_int extra i).2
        let newPos := (read_int extra ti).1
        match d.find? (fun kv =>
            (h.getD kv.2 (default_pokemon 0)).position == newPos
              || kv.1 == newPos) with
        | some kv =>
            applyEntryH extra cc my i
              (h.set kv.2 { h.getD kv.2 (default_pokemon 0) with myID := my })
              (dinsertKV (ddelA d kv.1) my kv.2)
        | none =>
            let i := (read_int extra i).2
            let i := (read_int extra i).2
            some (i, h, d)
      else
        some (skipChangesU extra cc i, h, d)
    else
      applyEntryH extra cc my i h d

/-- One iteration of the entry loop; mirrors `deltaStep`. -/
def deltaStepH (extra : List Char) (i : Nat) (h : Heap) (d : AddrDict) :
    Option (Nat × Heap × AddrDict) :=
  let ccl := decode_int_string (slice extra i 1)
  let i := i + 1
  if extra.length < i + ccl then none
  else
    let cc := decode_int_string (slice extra i ccl)
    let i := i + ccl
    if cc = 0 then some (i, h, d)
    else
      let rm := read_int2 extra i
      deltaStepTailH extra cc rm.2 rm.1 h d

/-- The entry loop; mirrors `deltaLoop`. -/
def deltaLoopH (extra : List Char) : Nat → Nat → Heap → AddrDict →
    Heap × AddrDict
  | 0, _, h, d => (h, d)
  | fuel + 1, i, h, d =>
    if extra.length ≤ i then (h, d)
    else
      match deltaStepH extra i h d with
      | none => (h, d)
      | some (i2, h2, d2) => deltaLoopH extra fuel i2 h2 d2

/-- Line 242: `{p["myID"]: p.copy() for p in existing_pokemon}` — each
`p.copy()` allocates a fresh address holding a copy of the record. -/
def buildDictH : List Nat → Heap → AddrDict → Heap × AddrDict
  | [], h, d => (h, d)
  | a :: as, h, d =>
    let p := h.getD a (default_pokemon 0)
    buildDictH as (h ++ [p]) (dinsertKV d p.myID h.length)

/-- `parse_delta_save` over the heap: `existing_pokemon` is the list of
addresses `addrs` into `h0`; the result is the final heap and the
returned roster. -/
def parse_delta_save_heap (extra : List Char) (h0 : Heap)
    (addrs : List Nat) : Heap × List Pokemon :=
  if extra.length < 4 then
    (h0, addrs.map (fun a => h0.getD a (default_pokemon 0)))
  else
    let hd := buildDictH addrs h0 []
    let headerLen := decode_int_string (slice extra 0 1)
    let i := 1 + headerLen
    let hd2 :=
      if extra.length ≤ i then hd
      else
        let countLen := decode_int_string (slice extra i 1)
        let i := i + 1
        let i := i + countLen
        deltaLoopH extra extra.length i hd.1 hd.2
    (hd2.1,
      sortByPosition ((hd2.2.filter (fun kv => 0 < kv.1)).map
        (fun kv => hd2.1.getD kv.2 (default_pokemon 0))))

/-! ### The frame invariant -/

/-- All parser writes stay at or above `N` (the size of the original
heap `h0`): the heap only grows, its first `N` cells still are `h0`,
and every address the dict can reach is at least `N`. -/
def HFrame (N : Nat) (h0 h : Heap) (d : AddrDict) : Prop :=
  N ≤ h.length ∧ h.take N = h0 ∧ ∀ kv ∈ d, N ≤ kv.2

theorem take_set_of_le (l : Heap) (m n : Nat) (a : Pokemon) (h : n ≤ m) :
    (l.set m a).take n = l.take n := by
  rw [List.set_take]
  exact List.set_eq_of_length_le
    (le_trans (le_trans (List.length_take_le n l) h) le_rfl)

theorem hframe_set {N : Nat} {h0 h : Heap} {d : AddrDict} {a : Nat}
    {p : Pokemon} (hf : HFrame N h0 h d) (ha : N ≤ a) :
    HFrame N h0 (h.set a p) d := by
  obtain ⟨h1, h2, h3⟩ := hf
  exact ⟨by simpa using h1, by rw [take_set_of_le _ _ _ _ ha]; exact h2, h3⟩

theorem hframe_alloc {N : Nat} {h0 h : Heap} {d : AddrDict}
    (hf : HFrame N h0 h d) (p : Pokemon) : HFrame N h0 (h ++ [p]) d := by
  obtain ⟨h1, h2, h3⟩ := hf
  refine ⟨by simp; omega, ?_, h3⟩
  rw [List.take_append_of_le_length h1]
  exact h2

theorem hframe_dinsert {N : Nat} {h0 h : Heap} {d : AddrDict} {k a : Nat}
    (hf : HFrame N h0 h d) (ha : N ≤ a) :
    HFrame N h0 h (dinsertKV d k a) := by
  obtain ⟨h1, h2, h3⟩ := hf
  refine ⟨h1, h2, ?_⟩
  intro kv hkv
  unfold dinsertKV at hkv
  by_cases hc : (d.lookup k).isSome
  · rw [if_pos hc] at hkv
    obtain ⟨kv0, hkv0, hval⟩ := List.mem_map.mp hkv
    by_cases he : kv0.1 = k
    · rw [if_pos he] at hval
      simpa [← hval] using ha
    · rw [if_neg he] at hval
      exact hval ▸ h3 kv0 hkv0
  · rw [if_neg hc] at hkv
    rcases List.mem_append.mp hkv with hin | hin
    · exact h3 kv hin
    · simp at hin
      simpa [hin] using ha

theorem hframe_ddelA {N : Nat} {h0 h : Heap} {d : AddrDict} (k : Nat)
    (hf : HFrame N h0 h d) : HFrame N h0 h (ddelA d k) := by
  obtain ⟨h1, h2, h3⟩ := hf
  exact ⟨h1, h2, fun kv hkv => h3 kv (List.mem_of_mem_filter hkv)⟩

theorem hframe_addr {N : Nat} {h0 h : Heap} {d : AddrDict} {my : Nat}
    (hf : HFrame N h0 h d) : N ≤ (d.lookup my).getD h.length := by
  cases hl : d.lookup my with
  | none => simpa using hf.1
  | some a => simpa using hf.2.2 _ (mem_of_lookup_eq_some hl)

theorem applyChangesH_frame (extra : List Char) {N : Nat} {h0 : Heap}
    {d : AddrDict} :
    ∀ (n i a : Nat) (h : Heap), HFrame N h0 h d → N ≤ a →
      HFrame N h0 (applyChangesH extra n i a h).2 d := by
  intro n
  induction n with
  | zero => intro i a h hf _; exact hf
  | succ m ih =>
    intro i a h hf ha
    unfold applyChangesH
    by_cases hend : extra.length ≤ i
    · rw [if_pos hend]; exact hf
    · rw [if_neg hend]
      exact ih _ _ _ (hframe_set hf ha) ha

theorem applyEntryH_frame {extra : List Char} {N : Nat} {h0 : Heap}
    {cc my i : Nat} {h : Heap} {d : AddrDict} {out : Nat × Heap × AddrDict}
    (hf : HFrame N h0 h d)
    (hr : applyEntryH extra cc my i h d = some out) :
    HFrame N h0 out.2.1 out.2.2 := by
  unfold applyEntryH at hr
  have ha := @hframe_addr N h0 h d my hf
  have := applyChangesH_frame extra cc i ((d.lookup my).getD h.length)
    (h.set ((d.lookup my).getD h.length)
      { h.getD ((d.lookup my).getD h.length) (default_pokemon 0) with
          myID := my })
    (hframe_set hf ha) ha
  simp only [Option.some.injEq] at hr
  rw [← hr]
  exact this

theorem deltaStepTailH_frame {extra : List Char} {N : Nat} {h0 : Heap}
    {cc i my0 : Nat} {h : Heap} {d : AddrDict} {out : Nat × Heap × AddrDict}
    (hf : HFrame N h0 h d)
    (hr : deltaStepTailH extra cc i my0 h d = some out) :
    HFrame N h0 out.2.1 out.2.2 := by
  unfold deltaStepTailH at hr
  by_cases hz : my0 = 0 ∧ (read_int extra i).1 ≠ 1
  · rw [if_pos hz] at hr
    simp only [Option.some.injEq] at hr
    rw [← hr]
    exact hf
  · rw [if_neg hz] at hr
    generalize (if my0 = 0 then (if d.isEmpty then 0 else maxKeysA d) + 1
      else my0) = my at hr
    by_cases hnone : (d.lookup my).isNone
    · rw [if_pos hnone] at hr
      by_cases h1 : (read_int extra i).1 = 1
      · rw [if_pos h1] at hr
        exact applyEntryH_frame
          (hframe_dinsert (hframe_alloc hf _) hf.1) hr
      · rw [if_neg h1] at hr
        by_cases h8 : (read_int extra i).1 = 8
        · rw [if_pos h8] at hr
          simp only [] at hr
          cases hfind : d.find? (fun kv =>
              (h.getD kv.2 (default_pokemon 0)).position
                == (read_int extra (read_int extra i).2).1
                || kv.1 == (read_int extra (read_int extra i).2).1) with
          | some kv =>
              rw [hfind] at hr
              have hkv : N ≤ kv.2 := hf.2.2 kv (List.mem_of_find?_eq_some hfind)
              exact applyEntryH_frame
                (hframe_dinsert (hframe_ddelA kv.1 (hframe_set hf hkv)) hkv) hr
          | none =>
              rw [hfind] at hr
              simp only [Option.some.injEq] at hr
              rw [← hr]
              exact hf
        · rw [if_neg h8] at hr
          simp only [Option.some.injEq] at hr
          rw [← hr]
          exact hf
    · rw [if_neg hnone] at hr
      exact applyEntryH_frame hf hr

theorem deltaStepH_frame {extra : List Char} {N : Nat} {h0 : Heap}
    {i : Nat} {h : Heap} {d : AddrDict} {out : Nat × Heap × AddrDict}
    (hf : HFrame N h0 h d)
    (hr : deltaStepH extra i h d = some out) :
    HFrame N h0 out.2.1 out.2.2 := by
  unfold deltaStepH at hr
  by_cases htr : extra.length <
      i + 1 + decode_int_string (slice extra i 1)
  · rw [if_pos htr] at hr
    exact absurd hr (by simp)
  · rw [if_neg htr] at hr
    by_cases hcc : decode_int_string
        (slice extra (i + 1)
          (decode_int_string (slice extra i 1))) = 0
    · rw [if_pos hcc] at hr
      simp only [Option.some.injEq] at hr
      rw [← hr]
      exact hf
    · rw [if_neg hcc] at hr
      exact deltaStepTailH_frame hf hr

theorem deltaLoopH_frame (extra : List Char) {N : Nat} {h0 : Heap} :
    ∀ (fuel i : Nat) (h : Heap) (d : AddrDict), HFrame N h0 h d →
      HFrame N h0 (deltaLoopH extra fuel i h d).1
        (deltaLoopH extra fuel i h d).2 := by
  intro fuel
  induction fuel with
  | zero => intro i h d hf; exact hf
  | succ m ih =>
    intro i h d hf
    unfold deltaLoopH
    by_cases hend : extra.length ≤ i
    · rw [if_pos hend]; exact hf
    · rw [if_neg hend]
      cases hst : deltaStepH extra i h d with
      | none => exact hf
      | some out => exact ih _ _ _ (deltaStepH_frame hf hst)

theorem buildDictH_frame {N : Nat} {h0 : Heap} :
    ∀ (as : List Nat) (h : Heap) (d : AddrDict), HFrame N h0 h d →
      HFrame N h0 (buildDictH as h d).1 (buildDictH as h d).2 := by
  intro as
  induction as with
  | nil => intro h d hf; exact hf
  | cons a rest ih =>
    intro h d hf
    unfold buildDictH
    exact ih _ _ (hframe_dinsert (hframe_alloc hf _) hf.1)

/-- C10: for every delta string and every roster (a list of addresses
into the heap `h0` of existing records), `parse_delta_save` leaves the
existing records unmodified — the final heap restricted to the cells of
`h0` is `h0` itself, because the parser only writes to the copies it
allocates (and the address list, being a value, is unchanged a
fortiori). -/
theorem C10_existing_unmodified (extra : List Char) (h0 : Heap)
    (addrs : List Nat) :
    (parse_delta_save_heap extra h0 addrs).1.take h0.length = h0 := by
  unfold parse_delta_save_heap
  by_cases hshort : extra.length < 4
  · rw [if_pos hshort]
    exact List.take_length _
  · rw [if_neg hshort]
    simp only []
    have hf0 : HFrame h0.length h0 h0 [] :=
      ⟨le_rfl, List.take_length _, by simp⟩
    have hf1 := buildDictH_frame addrs h0 [] hf0
    by_cases hend : extra.length ≤ 1 + decode_int_string (slice extra 0 1)
    · rw [if_pos hend]
      exact hf1.2.1
    · rw [if_neg hend]
      exact (deltaLoopH_frame extra _ _ _ _ hf1).2.1

end PTD